import Mathlib

/-!
# Verification of the fast-crewai Rust core (`src/lib.rs`)

Shallow embedding of the pure logic of `RustToolExecutor` and
`RustTaskExecutor` from `src/lib.rs`, together with proofs of the
specification claims about them.

Modelling conventions:
* `usize`/`u64` counters are modelled as `Nat` (the code never subtracts
  below zero, which the invariant proofs confirm).
* `std::time::Instant` timestamps are modelled by an explicit `Nat` clock of
  whole elapsed seconds; `Instant::elapsed().as_secs()` at clock `now` for a
  timestamp `t` is `now - t` (truncated subtraction is exact because the
  clock is monotone, `t ≤ now`).
* `HashMap<String, V>` is modelled as an association list with distinct keys;
  `insert` conses the new binding and lookups take the first match, which is
  observationally the insert-overwrite semantics. Where the code iterates a
  `HashMap` in arbitrary order, the list order stands for one such order; the
  claims proved about those functions are insensitive to it.
* A Python method that mutates `self` and returns a value becomes a function
  `State → State × α`; one that can raise becomes
  `State → State × Except String α` (a raised error leaves the Rust state
  unchanged, as in the code where the error return happens before any
  mutation).
-/

namespace FastCrewai

/-! ## Definitions: RustToolExecutor (`src/lib.rs` lines 163-394) -/

/-- `CachedResult` (lib.rs 164-168): a cached tool result with the instant it
was stored, the instant being modelled as a `Nat` clock value. -/
structure CachedResult where
  result : String
  timestamp : Nat
deriving Repr, DecidableEq

/-- `ExecutionStats` (lib.rs 183-189). -/
structure ExecutionStats where
  total_executions : Nat := 0
  cache_hits : Nat := 0
  cache_misses : Nat := 0
  validation_failures : Nat := 0
deriving Repr, DecidableEq

/-- `RustToolExecutor` (lib.rs 171-181): recursion-depth guard plus result
cache plus statistics. -/
structure RustToolExecutor where
  max_recursion_depth : Nat
  execution_count : Nat
  result_cache : List (String × CachedResult)
  cache_ttl_secs : Nat
  stats : ExecutionStats
deriving Repr, DecidableEq

namespace RustToolExecutor

/-- `RustToolExecutor::new` (lib.rs 193-203). -/
def new (max_recursion_depth : Nat) (cache_ttl_secs : Nat) : RustToolExecutor :=
  { max_recursion_depth := max_recursion_depth
    execution_count := 0
    result_cache := []
    cache_ttl_secs := cache_ttl_secs
    stats := {} }

/-- The cache key `format!("{}:{}", tool_name, args)` used by `get_cached`
(lib.rs 295) and `cache_result` (lib.rs 324). -/
def cacheKey (tool_name args : String) : String :=
  tool_name ++ ":" ++ args

/-- `RustToolExecutor::begin_execution` (lib.rs 252-276): check the recursion
bound; on success increment the in-flight counter and `total_executions` and
return the execution id `format!("{}:{}", tool_name, args.len())`. The error
return at lib.rs 260-264 happens before any mutation, so the state is
unchanged on failure. -/
def begin_execution (ex : RustToolExecutor) (tool_name args : String) :
    RustToolExecutor × Except String String :=
  if ex.max_recursion_depth ≤ ex.execution_count then
    (ex, .error "Maximum recursion depth exceeded")
  else
    ({ ex with
        execution_count := ex.execution_count + 1
        stats := { ex.stats with total_executions := ex.stats.total_executions + 1 } },
      .ok (tool_name ++ ":" ++ toString args.length))

/-- `RustToolExecutor::end_execution` (lib.rs 279-291): decrement the
in-flight counter only when it is positive. -/
def end_execution (ex : RustToolExecutor) : RustToolExecutor :=
  if 0 < ex.execution_count then
    { ex with execution_count := ex.execution_count - 1 }
  else
    ex

/-- `RustToolExecutor::get_cached` (lib.rs 294-320) at clock instant `now`:
look the key up; if present and the elapsed whole seconds are strictly below
the TTL, count a hit and return the stored result; otherwise count a miss and
return `none`. -/
def get_cached (ex : RustToolExecutor) (tool_name args : String) (now : Nat) :
    RustToolExecutor × Option String :=
  let cache_key := cacheKey tool_name args
  match ex.result_cache.lookup cache_key with
  | some cached =>
      if now - cached.timestamp < ex.cache_ttl_secs then
        ({ ex with stats := { ex.stats with cache_hits := ex.stats.cache_hits + 1 } },
          some cached.result)
      else
        ({ ex with stats := { ex.stats with cache_misses := ex.stats.cache_misses + 1 } },
          none)
  | none =>
      ({ ex with stats := { ex.stats with cache_misses := ex.stats.cache_misses + 1 } },
        none)

/-- `RustToolExecutor::cache_result` (lib.rs 323-342) at clock instant `now`:
insert (overwrite) the result under the cache key with the current timestamp. -/
def cache_result (ex : RustToolExecutor) (tool_name args result : String) (now : Nat) :
    RustToolExecutor :=
  { ex with result_cache :=
      (cacheKey tool_name args, { result := result, timestamp := now }) :: ex.result_cache }

/-- `RustToolExecutor::get_stats` (lib.rs 359-380): the returned map as an
association list, with the derived `cache_hit_rate_percent` entry inserted
only when at least one cache lookup has happened. -/
def get_stats (ex : RustToolExecutor) : List (String × Nat) :=
  let base : List (String × Nat) :=
    [("total_executions", ex.stats.total_executions),
     ("cache_hits", ex.stats.cache_hits),
     ("cache_misses", ex.stats.cache_misses),
     ("validation_failures", ex.stats.validation_failures)]
  let total_cache_lookups := ex.stats.cache_hits + ex.stats.cache_misses
  if 0 < total_cache_lookups then
    base ++ [("cache_hit_rate_percent",
      (ex.stats.cache_hits * 100) / total_cache_lookups)]
  else
    base

/-- One guard-relevant call on the executor, for stating the counter
invariant over arbitrary call sequences. -/
inductive GuardOp where
  | beginExec (tool_name args : String)
  | endExec
deriving Repr, DecidableEq

/-- Apply one guard operation to the executor state (discarding the returned
value / error of `begin_execution`). -/
def applyGuardOp (ex : RustToolExecutor) : GuardOp → RustToolExecutor
  | .beginExec tool_name args => (ex.begin_execution tool_name args).1
  | .endExec => ex.end_execution

/-- Run a sequence of guard operations from a given state. -/
def runGuardOps (ex : RustToolExecutor) : List GuardOp → RustToolExecutor
  | [] => ex
  | op :: ops => runGuardOps (ex.applyGuardOp op) ops

end RustToolExecutor

/-! ## Definitions: JSON canonicalization (`RustToolExecutor::parse_args`,
`src/lib.rs` lines 222-238)

`parse_args` is `serde_json::from_str::<serde_json::Value>` followed by
`serde_json::to_string`. `serde_json`'s default `Map` is a `BTreeMap`, so
objects are held with their keys sorted (byte-lexicographically, which on
UTF-8 agrees with the scalar-value order used by Lean's `String` order) and
re-serialization emits sorted keys and no whitespace — the code comment at
lib.rs 231 ("Re-serialize with sorted keys for consistent cache keys")
documents exactly this configuration. The model below is that parser and
serializer pair, with two documented restrictions: JSON numbers are modelled
as integers only (no fraction/exponent forms), and `\uXXXX` escapes are
decoded without `serde_json`'s surrogate-pair handling. Neither restriction
touches the canonicalization logic the claim is about. -/

/-- `serde_json::Value` with integer numbers; objects carry their field list
(kept sorted by the parser, as `BTreeMap` does). -/
inductive Json where
  | null
  | bool (b : Bool)
  | num (n : Int)
  | str (s : String)
  | arr (elems : List Json)
  | obj (fields : List (String × Json))
deriving Repr

namespace Canon

/-- Lexicographic strict order on character lists by scalar value; on UTF-8
data this agrees with Rust's byte order on `String`, the `BTreeMap` key
order. -/
def ltChars : List Char → List Char → Bool
  | [], [] => false
  | [], _ :: _ => true
  | _ :: _, [] => false
  | c1 :: cs1, c2 :: cs2 =>
      if c1.toNat < c2.toNat then true
      else if c2.toNat < c1.toNat then false
      else ltChars cs1 cs2

/-- Rust's `Ord` on `String` (byte-lexicographic). -/
def ltStr (s1 s2 : String) : Bool := ltChars s1.data s2.data

/-- `BTreeMap::insert`: place the binding at its sorted position, replacing
an equal key (last write wins, as in `serde_json` duplicate-key handling). -/
def insertKey (k : String) (v : Json) : List (String × Json) → List (String × Json)
  | [] => [(k, v)]
  | (k', v') :: rest =>
      if ltStr k k' then (k, v) :: (k', v') :: rest
      else if k = k' then (k, v) :: rest
      else (k', v') :: insertKey k v rest

/-- The lowercase hex digit used by `serde_json`'s `\u00XX` escapes. -/
def hexDigitChar (n : Nat) : Char :=
  if n < 10 then Char.ofNat (48 + n) else Char.ofNat (87 + n)

/-- `serde_json`'s character escaping for string serialization: quote,
backslash, the named control escapes, `\u00XX` for other control characters,
and everything else verbatim. -/
def escapeChar (c : Char) : List Char :=
  if c = '"' then ['\\', '"']
  else if c = '\\' then ['\\', '\\']
  else if c = Char.ofNat 8 then ['\\', 'b']
  else if c = Char.ofNat 9 then ['\\', 't']
  else if c = Char.ofNat 10 then ['\\', 'n']
  else if c = Char.ofNat 12 then ['\\', 'f']
  else if c = Char.ofNat 13 then ['\\', 'r']
  else if c.toNat < 32 then
    ['\\', 'u', '0', '0', hexDigitChar (c.toNat / 16), hexDigitChar (c.toNat % 16)]
  else [c]

/-- Accumulator loop extracting decimal digits of `n`, least significant
digit first into `acc`; the fuel dominates `n`, making the recursion
structural. -/
def natToCharsAux : Nat → Nat → List Char → List Char
  | 0, _, acc => acc
  | fuel + 1, n, acc =>
      if n = 0 then acc
      else natToCharsAux fuel (n / 10) (Char.ofNat (48 + n % 10) :: acc)

/-- Decimal rendering of a natural (`itoa`, as `serde_json` prints them). -/
def natToChars (n : Nat) : List Char :=
  if n = 0 then ['0'] else natToCharsAux n n []

/-- Decimal rendering of an integer. -/
def intToChars (i : Int) : List Char :=
  if i < 0 then '-' :: natToChars i.natAbs else natToChars i.natAbs

mutual

/-- `serde_json::to_string` on a value: compact form, no whitespace, object
keys in stored (sorted) order. -/
def serializeVal : Json → List Char
  | Json.null => ['n', 'u', 'l', 'l']
  | Json.bool true => ['t', 'r', 'u', 'e']
  | Json.bool false => ['f', 'a', 'l', 's', 'e']
  | Json.num i => intToChars i
  | .str s => '"' :: (s.data.flatMap escapeChar ++ ['"'])
  | .arr es => '[' :: (serializeElems es ++ [']'])
  | .obj fs => '{' :: (serializeFields fs ++ ['}'])

/-- Comma-separated serialization of array elements. -/
def serializeElems : List Json → List Char
  | [] => []
  | [e] => serializeVal e
  | e :: es => serializeVal e ++ ',' :: serializeElems es

/-- Comma-separated serialization of object fields. -/
def serializeFields : List (String × Json) → List Char
  | [] => []
  | [(k, v)] => ('"' :: (k.data.flatMap escapeChar ++ ['"', ':'])) ++ serializeVal v
  | (k, v) :: fs =>
      ('"' :: (k.data.flatMap escapeChar ++ ['"', ':'])) ++ serializeVal v ++
        ',' :: serializeFields fs

end

/-- JSON whitespace. -/
def isWs (c : Char) : Bool :=
  c = ' ' || c = Char.ofNat 9 || c = Char.ofNat 10 || c = Char.ofNat 13

/-- Drop leading JSON whitespace. -/
def skipWs : List Char → List Char
  | [] => []
  | c :: cs => if isWs c then skipWs cs else c :: cs

/-- ASCII decimal digit test. -/
def isDigit (c : Char) : Bool :=
  48 ≤ c.toNat && c.toNat ≤ 57

/-- The numeric value of an ASCII digit. -/
def digitVal (c : Char) : Nat := c.toNat - 48

/-- Hexadecimal digit value, upper or lower case. -/
def hexVal (c : Char) : Option Nat :=
  if 48 ≤ c.toNat ∧ c.toNat ≤ 57 then some (c.toNat - 48)
  else if 97 ≤ c.toNat ∧ c.toNat ≤ 102 then some (c.toNat - 87)
  else if 65 ≤ c.toNat ∧ c.toNat ≤ 70 then some (c.toNat - 55)
  else none

/-- Parse the body of a JSON string literal (after the opening quote) up to
and including the closing quote, decoding escapes; returns the decoded
characters and the remaining input. -/
def parseStringBody : List Char → Option (List Char × List Char)
  | [] => none
  | c :: cs =>
      if c = '"' then some ([], cs)
      else if c = '\\' then
        match cs with
        | [] => none
        | e :: cs' =>
            if e = '"' then (parseStringBody cs').map (fun p => ('"' :: p.1, p.2))
            else if e = '\\' then (parseStringBody cs').map (fun p => ('\\' :: p.1, p.2))
            else if e = '/' then (parseStringBody cs').map (fun p => ('/' :: p.1, p.2))
            else if e = 'b' then
              (parseStringBody cs').map (fun p => (Char.ofNat 8 :: p.1, p.2))
            else if e = 'f' then
              (parseStringBody cs').map (fun p => (Char.ofNat 12 :: p.1, p.2))
            else if e = 'n' then
              (parseStringBody cs').map (fun p => (Char.ofNat 10 :: p.1, p.2))
            else if e = 'r' then
              (parseStringBody cs').map (fun p => (Char.ofNat 13 :: p.1, p.2))
            else if e = 't' then
              (parseStringBody cs').map (fun p => (Char.ofNat 9 :: p.1, p.2))
            else if e = 'u' then
              match cs' with
              | h1 :: h2 :: h3 :: h4 :: cs2 =>
                  match hexVal h1, hexVal h2, hexVal h3, hexVal h4 with
                  | some a, some b, some c2, some d =>
                      (parseStringBody cs2).map
                        (fun p => (Char.ofNat (((a * 16 + b) * 16 + c2) * 16 + d) :: p.1, p.2))
                  | _, _, _, _ => none
              | _ => none
            else none
      else (parseStringBody cs).map (fun p => (c :: p.1, p.2))

/-- Parse a nonempty run of decimal digits into a natural number. -/
def parseNat (cs : List Char) : Option (Nat × List Char) :=
  let digits := cs.takeWhile isDigit
  if digits.isEmpty then none
  else some (digits.foldl (fun acc c => acc * 10 + digitVal c) 0, cs.dropWhile isDigit)

mutual

/-- Recursive-descent parser for a JSON value (`serde_json::from_str`'s
grammar with integer-only numbers), fuel-bounded; the fuel only limits the
recursion and is immaterial whenever it is at least the value's size. -/
def parseValue : Nat → List Char → Option (Json × List Char)
  | 0, _ => none
  | fuel + 1, cs =>
      match skipWs cs with
      | [] => none
      | c :: cs' =>
          if c = 'n' then
            match cs' with
            | 'u' :: 'l' :: 'l' :: rest => some (.null, rest)
            | _ => none
          else if c = 't' then
            match cs' with
            | 'r' :: 'u' :: 'e' :: rest => some (.bool true, rest)
            | _ => none
          else if c = 'f' then
            match cs' with
            | 'a' :: 'l' :: 's' :: 'e' :: rest => some (.bool false, rest)
            | _ => none
          else if c = '"' then
            (parseStringBody cs').map (fun p => (.str (String.mk p.1), p.2))
          else if c = '[' then
            match skipWs cs' with
            | ']' :: rest => some (.arr [], rest)
            | cs2 => parseElems fuel cs2 []
          else if c = '{' then
            match skipWs cs' with
            | '}' :: rest => some (.obj [], rest)
            | cs2 => parseFields fuel cs2 []
          else if c = '-' then
            match parseNat cs' with
            | some (n, rest) => some (.num (-(n : Int)), rest)
            | none => none
          else if isDigit c then
            match parseNat (c :: cs') with
            | some (n, rest) => some (.num (n : Int), rest)
            | none => none
          else none

/-- Parse the remaining comma-separated elements of a nonempty array, the
elements parsed so far accumulated in order. -/
def parseElems : Nat → List Char → List Json → Option (Json × List Char)
  | 0, _, _ => none
  | fuel + 1, cs, acc =>
      match parseValue fuel cs with
      | none => none
      | some (v, rest) =>
          match skipWs rest with
          | ',' :: rest' => parseElems fuel rest' (acc ++ [v])
          | ']' :: rest' => some (.arr (acc ++ [v]), rest')
          | _ => none

/-- Parse the remaining fields of a nonempty object, inserting each binding
into the sorted accumulator as `BTreeMap` construction does. -/
def parseFields : Nat → List Char → List (String × Json) →
    Option (Json × List Char)
  | 0, _, _ => none
  | fuel + 1, cs, acc =>
      match skipWs cs with
      | '"' :: cs' =>
          match parseStringBody cs' with
          | none => none
          | some (kchars, rest) =>
              match skipWs rest with
              | ':' :: rest' =>
                  match parseValue fuel rest' with
                  | none => none
                  | some (v, rest2) =>
                      match skipWs rest2 with
                      | ',' :: rest3 =>
                          parseFields fuel rest3 (insertKey (String.mk kchars) v acc)
                      | '}' :: rest3 =>
                          some (.obj (insertKey (String.mk kchars) v acc), rest3)
                      | _ => none
              | _ => none
      | _ => none

end

/-- `serde_json::from_str::<Value>`: parse one value and require only
whitespace to follow. The fuel `length + 1` is immaterial: it always covers
any value the serializer can produce (`sizeJ_le_serializeVal_length`). -/
def from_str (s : String) : Option Json :=
  match parseValue (s.length + 1) s.data with
  | some (v, rest) => if skipWs rest = [] then some v else none
  | none => none

/-- `serde_json::to_string` on a `Value`. -/
def to_string (v : Json) : String :=
  String.mk (serializeVal v)

mutual

/-- The fuel cost of a value: enough `parseValue`/`parseElems`/`parseFields`
steps to re-parse its serialization. -/
def sizeJ : Json → Nat
  | .null => 1
  | .bool _ => 1
  | .num _ => 1
  | .str _ => 1
  | .arr es => 1 + sizeElems es
  | .obj fs => 1 + sizeFields fs

/-- Fuel cost of array elements. -/
def sizeElems : List Json → Nat
  | [] => 0
  | e :: es => 1 + sizeJ e + sizeElems es

/-- Fuel cost of object fields. -/
def sizeFields : List (String × Json) → Nat
  | [] => 0
  | (_, v) :: fs => 1 + sizeJ v + sizeFields fs

end

/-- A right context in which a serialized value can be re-parsed without
ambiguity: it must not start with a digit (digits would extend a rendered
number). The separators `,`, `]`, `}` and the empty context qualify. -/
def restOk : List Char → Prop
  | [] => True
  | c :: _ => isDigit c = false

mutual

/-- A value in the parser's image: every object is sorted strictly by key
(the `BTreeMap` invariant). -/
def Canonical : Json → Prop
  | .null => True
  | .bool _ => True
  | .num _ => True
  | .str _ => True
  | .arr es => CanonicalElems es
  | .obj fs => List.Pairwise (fun p q => ltStr p.1 q.1 = true) fs ∧ CanonicalFields fs

/-- All array elements canonical. -/
def CanonicalElems : List Json → Prop
  | [] => True
  | e :: es => Canonical e ∧ CanonicalElems es

/-- All object field values canonical. -/
def CanonicalFields : List (String × Json) → Prop
  | [] => True
  | (_, v) :: fs => Canonical v ∧ CanonicalFields fs

end

mutual

/-- Structural identity of JSON documents up to object-key order: leaves
match exactly, arrays match pointwise, and an object matches another when
some permutation of its fields matches the other's pointwise (equal keys,
equivalent values). -/
inductive JEquiv : Json → Json → Prop where
  | null : JEquiv .null .null
  | bool (b : Bool) : JEquiv (.bool b) (.bool b)
  | num (n : Int) : JEquiv (.num n) (.num n)
  | str (s : String) : JEquiv (.str s) (.str s)
  | arr {es1 es2 : List Json} :
      JEquivElems es1 es2 → JEquiv (.arr es1) (.arr es2)
  | obj {fs1 fs2 : List (String × Json)} (l : List (String × Json)) :
      List.Perm fs1 l → JEquivFields l fs2 → JEquiv (.obj fs1) (.obj fs2)

/-- Pointwise equivalence of element lists. -/
inductive JEquivElems : List Json → List Json → Prop where
  | nil : JEquivElems [] []
  | cons {e1 e2 : Json} {es1 es2 : List Json} :
      JEquiv e1 e2 → JEquivElems es1 es2 → JEquivElems (e1 :: es1) (e2 :: es2)

/-- Pointwise equivalence of field lists: equal keys, equivalent values. -/
inductive JEquivFields : List (String × Json) → List (String × Json) → Prop where
  | nil : JEquivFields [] []
  | cons {k1 k2 : String} {v1 v2 : Json} {fs1 fs2 : List (String × Json)} :
      k1 = k2 → JEquiv v1 v2 → JEquivFields fs1 fs2 →
      JEquivFields ((k1, v1) :: fs1) ((k2, v2) :: fs2)

end

end Canon

namespace RustToolExecutor

/-- `RustToolExecutor::parse_args` (lib.rs 223-238): parse the payload as a
`serde_json::Value` and re-serialize it (sorted keys, no whitespace); `none`
models the `PyValueError` on invalid JSON. -/
def parse_args (args_json : String) : Option String :=
  (Canon.from_str args_json).map Canon.to_string

end RustToolExecutor

/-! ## Definitions: RustTaskExecutor (`src/lib.rs` lines 445-797)

The executor's `tasks: HashMap<String, TaskInfo>` is modelled as an
association list with distinct keys (`(taskKeys tasks).Nodup`); the claims
about it are insensitive to the arbitrary `HashMap` iteration order, so one
fixed list order stands for it. -/

/-- `TaskState` (lib.rs 446-452). -/
inductive TaskState where
  | Pending
  | Running
  | Completed
  | Failed
deriving Repr, DecidableEq

/-- `TaskInfo` (lib.rs 455-461). -/
structure TaskInfo where
  dependencies : List String
  state : TaskState
  result : Option String
  error : Option String
deriving Repr, DecidableEq

namespace RustTaskExecutor

/-- The task map of a `RustTaskExecutor` (lib.rs 467). -/
abbrev Tasks := List (String × TaskInfo)

/-- The registered task identifiers (the keys of the `tasks` map). -/
def taskKeys (tasks : Tasks) : List String := tasks.map Prod.fst

/-- The dependency list of a registered task (`[]` for an unregistered id). -/
def depsOf (tasks : Tasks) (task_id : String) : List String :=
  match tasks.lookup task_id with
  | some info => info.dependencies
  | none => []

/-- The inner dependency check of `get_ready_tasks` (lib.rs 566-576): a
dependency is satisfied exactly when it is registered and `Completed`; a
dangling dependency makes the task not ready instead of raising. -/
def depCompleted (tasks : Tasks) (dep_id : String) : Bool :=
  match tasks.lookup dep_id with
  | some dep_task => dep_task.state == TaskState.Completed
  | none => false

/-- `RustTaskExecutor::get_ready_tasks` (lib.rs 553-584): the identifiers of
`Pending` tasks all of whose dependencies are satisfied. -/
def get_ready_tasks (tasks : Tasks) : List String :=
  (tasks.filter (fun p =>
      p.2.state == TaskState.Pending && p.2.dependencies.all (depCompleted tasks))).map
    Prod.fst

/-- The initial `in_degree` entry of a registered task in
`get_execution_order` (lib.rs 678-689): one unit per dependency occurrence.
Ids without an entry (unregistered ones) are treated as degree 0; they never
reach the queue because the queue is drawn from the map's keys. -/
def initDeg (tasks : Tasks) (task_id : String) : Nat :=
  (depsOf tasks task_id).length

/-- The `adj_list` entry of an id in `get_execution_order` (lib.rs 682-688):
every registered task is listed once per occurrence of `d` among its
dependencies. -/
def adjOf (tasks : Tasks) (d : String) : List String :=
  tasks.flatMap (fun p => (p.2.dependencies.filter (fun x => x == d)).map (fun _ => p.1))

/-- The inner `for neighbor in neighbors` loop of `get_execution_order`
(lib.rs 703-712): decrement each neighbor's in-degree and push those that
reach zero onto the work stack. The `if let Some(deg)` guard of the code is
vacuous because every neighbor is a registered task id, so the total-function
model decrements unconditionally. -/
def processNeighbors : List String → (String → Nat) → List String →
    ((String → Nat) × List String)
  | [], deg, queue => (deg, queue)
  | n :: ns, deg, queue =>
      let d := deg n - 1
      processNeighbors ns (fun u => if u = n then d else deg u)
        (if d = 0 then n :: queue else queue)

/-- The `while let Some(node) = queue.pop()` loop of `get_execution_order`
(lib.rs 700-713). Rust's `Vec` is used as a stack (push/pop at the end),
modelled by a list with its head as stack top. The fuel argument only bounds
the iteration count; `kahnOutput` supplies `tasks.len()`, which the
invariant proof shows is never the reason the loop stops. -/
def kahnLoop (adj : String → List String) :
    Nat → (String → Nat) → List String → List String → List String
  | _, _, [], result => result
  | 0, _, _ :: _, result => result
  | fuel + 1, deg, node :: queue, result =>
      let step := processNeighbors (adj node) deg queue
      kahnLoop adj fuel step.1 step.2 (result ++ [node])

/-- The complete Kahn pass of `get_execution_order` (lib.rs 673-713): start
from the zero-in-degree registered ids and drain the stack. -/
def kahnOutput (tasks : Tasks) : List String :=
  kahnLoop (adjOf tasks) tasks.length (initDeg tasks)
    ((taskKeys tasks).filter (fun t => initDeg tasks t == 0)) []

/-- `RustTaskExecutor::get_execution_order` (lib.rs 668-723): run Kahn's
algorithm; if the output misses any registered task, report the circular
dependency error (lib.rs 716-720), else return the order. -/
def get_execution_order (tasks : Tasks) : Except String (List String) :=
  let result := kahnOutput tasks
  if result.length ≠ tasks.length then
    .error "Circular dependency detected in tasks"
  else
    .ok result

/-- The dependency edge relation of the registered graph: `Edge tasks d t`
holds when `t` is registered and lists `d` among its dependencies (an edge
from the dependency to its dependent). -/
def Edge (tasks : Tasks) (d t : String) : Prop :=
  t ∈ taskKeys tasks ∧ d ∈ depsOf tasks t

/-- The dependency graph has a cycle: a nonempty dependency-edge walk from
some id back to itself. -/
def HasCycle (tasks : Tasks) : Prop :=
  ∃ (u : String) (l : List String),
    List.Chain (Edge tasks) u l ∧ l.getLast? = some u

/-- The in-degree a task would have after the emitted prefix `result`: its
dependency occurrences not yet emitted. -/
def remainingDeg (tasks : Tasks) (result : List String) (t : String) : Nat :=
  ((depsOf tasks t).filter (fun d => !(result.contains d))).length

/-- The loop invariant of the Kahn pass, for the state made of the current
in-degree table `deg`, work stack `queue` and emitted prefix `result`. -/
structure KahnInv (tasks : Tasks) (deg : String → Nat)
    (queue result : List String) : Prop where
  result_nodup : result.Nodup
  queue_nodup : queue.Nodup
  disj : ∀ u ∈ queue, u ∉ result
  result_keys : ∀ u ∈ result, u ∈ taskKeys tasks
  queue_keys : ∀ u ∈ queue, u ∈ taskKeys tasks
  deg_eq : ∀ t ∈ taskKeys tasks, deg t = remainingDeg tasks result t
  zero_iff : ∀ t ∈ taskKeys tasks, (deg t = 0 ↔ t ∈ result ∨ t ∈ queue)
  ordered : ∀ t ∈ result, ∀ d ∈ depsOf tasks t,
    d ∈ result ∧ result.indexOf d < result.indexOf t

/-- The reversed trace of `n` iterates of a sequence, used to exhibit a cycle
from a repeating chain of predecessors: `[g (n-1), ..., g 1, g 0]`. -/
def descendChain (g : Nat → String) : Nat → List String
  | 0 => []
  | n + 1 => g n :: descendChain g n

/-- A small concrete task map used by witnesses: `a` completed, `b` pending
on `a`, `c` pending on the unregistered `x`, `d` running. -/
def sampleTasks : Tasks :=
  [("a", { dependencies := [], state := .Completed, result := some "ra", error := none }),
   ("b", { dependencies := ["a"], state := .Pending, result := none, error := none }),
   ("c", { dependencies := ["x"], state := .Pending, result := none, error := none }),
   ("d", { dependencies := [], state := .Running, result := none, error := none })]

/-- A two-task acyclic chain used by witnesses: `b` depends on `a`. -/
def chainTasks : Tasks :=
  [("a", { dependencies := [], state := .Pending, result := none, error := none }),
   ("b", { dependencies := ["a"], state := .Pending, result := none, error := none })]

/-- A two-task cycle used by witnesses: `a` and `b` depend on each other. -/
def cycleTasks : Tasks :=
  [("a", { dependencies := ["b"], state := .Pending, result := none, error := none }),
   ("b", { dependencies := ["a"], state := .Pending, result := none, error := none })]

/-- A task with an unregistered dependency, used by witnesses. -/
def danglingTasks : Tasks :=
  [("a", { dependencies := ["x"], state := .Pending, result := none, error := none })]

end RustTaskExecutor

/-! ## Theorems: RustToolExecutor claims -/

namespace RustToolExecutor

/-- Helper: `begin_execution` and `end_execution` never change the configured
maximum, and keep the in-flight counter below it. -/
theorem applyGuardOp_bound (ex : RustToolExecutor) (op : GuardOp)
    (h : ex.execution_count ≤ ex.max_recursion_depth) :
    (ex.applyGuardOp op).execution_count ≤ (ex.applyGuardOp op).max_recursion_depth ∧
    (ex.applyGuardOp op).max_recursion_depth = ex.max_recursion_depth := by
  cases op with
  | beginExec tool_name args =>
      simp only [applyGuardOp, begin_execution]
      split
      · exact ⟨h, rfl⟩
      · next hlt => exact ⟨by simpa using Nat.lt_of_not_le hlt, rfl⟩
  | endExec =>
      simp only [applyGuardOp, end_execution]
      split
      · exact ⟨Nat.le_trans (Nat.sub_le _ _) h, rfl⟩
      · exact ⟨h, rfl⟩

/-- Helper: the counter bound is preserved by any sequence of guard calls. -/
theorem runGuardOps_bound (ops : List GuardOp) (ex : RustToolExecutor)
    (h : ex.execution_count ≤ ex.max_recursion_depth) :
    (runGuardOps ex ops).execution_count ≤ (runGuardOps ex ops).max_recursion_depth ∧
    (runGuardOps ex ops).max_recursion_depth = ex.max_recursion_depth := by
  induction ops generalizing ex with
  | nil => exact ⟨h, rfl⟩
  | cons op ops ih =>
      obtain ⟨h1, h2⟩ := applyGuardOp_bound ex op h
      obtain ⟨h3, h4⟩ := ih (ex.applyGuardOp op) h1
      exact ⟨h3, h4.trans h2⟩

end RustToolExecutor

open RustToolExecutor in
/-- C3: `begin_execution` succeeds exactly when the in-flight count is
strictly below `max_recursion_depth`; on success it increments both the
in-flight counter and `total_executions` by one, and on failure it returns
the depth-exceeded error and leaves the whole state unchanged. -/
theorem begin_execution_spec (ex : RustToolExecutor) (tool_name args : String) :
    (((ex.begin_execution tool_name args).2.isOk = true) ↔
      ex.execution_count < ex.max_recursion_depth) ∧
    (ex.execution_count < ex.max_recursion_depth →
      (ex.begin_execution tool_name args).1.execution_count = ex.execution_count + 1 ∧
      (ex.begin_execution tool_name args).1.stats.total_executions =
        ex.stats.total_executions + 1) ∧
    (ex.max_recursion_depth ≤ ex.execution_count →
      (ex.begin_execution tool_name args).2 = .error "Maximum recursion depth exceeded" ∧
      (ex.begin_execution tool_name args).1 = ex) := by
  refine ⟨?_, ?_, ?_⟩
  · constructor
    · intro h
      by_contra hlt
      simp [begin_execution, Nat.le_of_not_lt hlt, Except.isOk, Except.toBool] at h
    · intro h
      simp [begin_execution, Nat.not_le_of_lt h, Except.isOk, Except.toBool]
  · intro h
    simp [begin_execution, Nat.not_le_of_lt h]
  · intro h
    simp [begin_execution, h]

open RustToolExecutor in
/-- C3 witness: from a fresh executor with depth bound 2, one
`begin_execution` succeeds, increments the in-flight counter and
`total_executions` to 1, and a saturated executor fails unchanged. -/
theorem begin_execution_spec_witness :
    (((RustToolExecutor.new 2 300).begin_execution "echo" "x").1.execution_count = 0 + 1 ∧
      ((RustToolExecutor.new 2 300).begin_execution "echo" "x").1.stats.total_executions
        = 0 + 1) ∧
    ((RustToolExecutor.new 0 300).begin_execution "echo" "x").2 =
      .error "Maximum recursion depth exceeded" ∧
    ((RustToolExecutor.new 0 300).begin_execution "echo" "x").1 =
      RustToolExecutor.new 0 300 :=
  ⟨(begin_execution_spec (RustToolExecutor.new 2 300) "echo" "x").2.1 (by decide),
   (begin_execution_spec (RustToolExecutor.new 0 300) "echo" "x").2.2 (by decide)⟩

open RustToolExecutor in
/-- C4: starting from a fresh executor (count 0), every sequence of
`begin_execution`/`end_execution` calls keeps the in-flight counter at most
`max_recursion_depth` (it is a `Nat`, hence never negative), and
`end_execution` on a zero counter is a no-op on the whole state. -/
theorem guard_counter_invariant (max_depth ttl : Nat)
    (ops : List RustToolExecutor.GuardOp) :
    (RustToolExecutor.runGuardOps (RustToolExecutor.new max_depth ttl) ops).execution_count
      ≤ max_depth ∧
    (∀ ex : RustToolExecutor, ex.execution_count = 0 → ex.end_execution = ex) := by
  constructor
  · have h := runGuardOps_bound ops (RustToolExecutor.new max_depth ttl) (Nat.zero_le _)
    have h1 := h.1
    rw [h.2] at h1
    exact h1
  · intro ex h
    simp [end_execution, h]

open RustToolExecutor in
/-- C4 witness: a begin / end / end sequence from a fresh depth-1 executor
stays within the bound, and `end_execution` on a fresh executor is a no-op. -/
theorem guard_counter_invariant_witness :
    (RustToolExecutor.runGuardOps (RustToolExecutor.new 1 300)
        [GuardOp.beginExec "t" "a", GuardOp.endExec, GuardOp.endExec]).execution_count
      ≤ 1 ∧
    (RustToolExecutor.new 1 300).end_execution = RustToolExecutor.new 1 300 :=
  ⟨(guard_counter_invariant 1 300
      [GuardOp.beginExec "t" "a", GuardOp.endExec, GuardOp.endExec]).1,
   (guard_counter_invariant 1 300 []).2 (RustToolExecutor.new 1 300) (by decide)⟩

open RustToolExecutor in
/-- C5: caching a result and looking it up with less than `cache_ttl_secs`
whole seconds elapsed returns the stored result and counts a hit; looking it
up once at least `cache_ttl_secs` seconds have elapsed returns `none` and
counts a miss; and every `get_cached` call increments exactly one of
`cache_hits` / `cache_misses`. -/
theorem cache_roundtrip_spec (ex : RustToolExecutor) (tool_name args result : String)
    (t0 t1 : Nat) :
    ((t1 - t0 < ex.cache_ttl_secs →
      ((ex.cache_result tool_name args result t0).get_cached tool_name args t1).2 =
          some result ∧
      ((ex.cache_result tool_name args result t0).get_cached tool_name args
          t1).1.stats.cache_hits = ex.stats.cache_hits + 1) ∧
     (ex.cache_ttl_secs ≤ t1 - t0 →
      ((ex.cache_result tool_name args result t0).get_cached tool_name args t1).2 = none ∧
      ((ex.cache_result tool_name args result t0).get_cached tool_name args
          t1).1.stats.cache_misses = ex.stats.cache_misses + 1)) ∧
    (∀ (n a : String) (now : Nat),
      ((ex.get_cached n a now).1.stats.cache_hits = ex.stats.cache_hits + 1 ∧
        (ex.get_cached n a now).1.stats.cache_misses = ex.stats.cache_misses) ∨
      ((ex.get_cached n a now).1.stats.cache_misses = ex.stats.cache_misses + 1 ∧
        (ex.get_cached n a now).1.stats.cache_hits = ex.stats.cache_hits)) := by
  refine ⟨⟨?_, ?_⟩, ?_⟩
  · intro h
    simp [cache_result, get_cached, List.lookup, h]
  · intro h
    simp [cache_result, get_cached, List.lookup, Nat.not_lt_of_le h]
  · intro n a now
    unfold get_cached
    cases hl : List.lookup (cacheKey n a) ex.result_cache with
    | none => right; simp [hl]
    | some c =>
        by_cases hv : now - c.timestamp < ex.cache_ttl_secs
        · left; simp [hl, hv]
        · right; simp [hl, hv]

open RustToolExecutor in
/-- C5 witness: with TTL 10, a result cached at instant 0 is returned at
instant 3 (a hit) and gone at instant 10 (a miss), and a lookup on a fresh
executor bumps exactly one of the two counters. -/
theorem cache_roundtrip_spec_witness :
    ((((RustToolExecutor.new 5 10).cache_result "t" "a" "r" 0).get_cached "t" "a" 3).2 =
        some "r" ∧
      (((RustToolExecutor.new 5 10).cache_result "t" "a" "r" 0).get_cached "t" "a"
          3).1.stats.cache_hits = 0 + 1) ∧
    ((((RustToolExecutor.new 5 10).cache_result "t" "a" "r" 0).get_cached "t" "a" 10).2 =
        none ∧
      (((RustToolExecutor.new 5 10).cache_result "t" "a" "r" 0).get_cached "t" "a"
          10).1.stats.cache_misses = 0 + 1) :=
  ⟨(cache_roundtrip_spec (RustToolExecutor.new 5 10) "t" "a" "r" 0 3).1.1 (by decide),
   (cache_roundtrip_spec (RustToolExecutor.new 5 10) "t" "a" "r" 0 10).1.2 (by decide)⟩

open RustToolExecutor in
/-- C8: the stats snapshot contains `cache_hit_rate_percent` exactly when at
least one cache lookup has happened, and its value is then the integer
division `hits * 100 / (hits + misses)`; with no lookups the key is absent. -/
theorem get_stats_hit_rate (ex : RustToolExecutor) :
    (ex.get_stats).lookup "cache_hit_rate_percent" =
      (if 0 < ex.stats.cache_hits + ex.stats.cache_misses then
        some ((ex.stats.cache_hits * 100) / (ex.stats.cache_hits + ex.stats.cache_misses))
      else none) := by
  unfold get_stats
  by_cases h : 0 < ex.stats.cache_hits + ex.stats.cache_misses
  · simp [h, List.lookup]
  · simp [h, List.lookup]

open RustToolExecutor in
/-- C10: with `cache_ttl_secs = 0` every lookup misses (and counts a miss),
whatever the cache contents, because validity needs elapsed seconds strictly
below the TTL. -/
theorem get_cached_ttl_zero (ex : RustToolExecutor) (h : ex.cache_ttl_secs = 0)
    (tool_name args : String) (now : Nat) :
    (ex.get_cached tool_name args now).2 = none ∧
    (ex.get_cached tool_name args now).1.stats.cache_misses =
      ex.stats.cache_misses + 1 := by
  unfold get_cached
  cases hl : List.lookup (cacheKey tool_name args) ex.result_cache with
  | none => simp [hl]
  | some c => simp [hl, h]

open RustToolExecutor in
/-- C10 witness: with TTL 0 the lookup misses even at the very instant the
result was cached under the same key. -/
theorem get_cached_ttl_zero_witness :
    ((((RustToolExecutor.new 5 0).cache_result "t" "a" "r" 7).get_cached "t" "a" 7).2 =
        none ∧
      (((RustToolExecutor.new 5 0).cache_result "t" "a" "r" 7).get_cached "t" "a"
          7).1.stats.cache_misses = 0 + 1) :=
  get_cached_ttl_zero ((RustToolExecutor.new 5 0).cache_result "t" "a" "r" 7)
    (by decide) "t" "a" 7

/-! ## Theorems: RustTaskExecutor claims -/

namespace RustTaskExecutor

/-- Helper: a binding found by `lookup` is a member of the list. -/
theorem mem_of_lookup_eq_some {tasks : Tasks} {k : String} {v : TaskInfo}
    (h : tasks.lookup k = some v) : (k, v) ∈ tasks := by
  induction tasks with
  | nil => simp [List.lookup] at h
  | cons p rest ih =>
      rw [List.lookup] at h
      by_cases hk : k = p.1
      · subst hk
        simp only [beq_self_eq_true] at h
        cases h
        cases p
        exact List.mem_cons_self _ _
      · rw [show (k == p.1) = false from beq_eq_false_iff_ne.mpr hk] at h
        exact List.mem_cons_of_mem _ (ih h)

/-- Helper: with distinct keys, membership determines the `lookup` result. -/
theorem lookup_eq_some_of_mem {tasks : Tasks} (hnd : (taskKeys tasks).Nodup)
    {k : String} {v : TaskInfo} (h : (k, v) ∈ tasks) : tasks.lookup k = some v := by
  induction tasks with
  | nil => simp at h
  | cons p rest ih =>
      simp only [taskKeys, List.map_cons, List.nodup_cons] at hnd
      rcases List.mem_cons.mp h with h | h
      · rw [← h]
        simp [List.lookup]
      · have hk : k ≠ p.1 := by
          intro hkk
          exact hnd.1 (hkk ▸ (List.mem_map.mpr ⟨(k, v), h, rfl⟩))
        rw [List.lookup, show (k == p.1) = false from beq_eq_false_iff_ne.mpr hk]
        exact ih hnd.2 h

open TaskState in
/-- C7: `get_ready_tasks` returns exactly the identifiers whose state is
`Pending` and all of whose dependencies are registered and `Completed`; a
dangling dependency silently disqualifies the task, and non-`Pending` tasks
are never returned. -/
theorem get_ready_tasks_spec (tasks : Tasks) (hnd : (taskKeys tasks).Nodup)
    (id : String) :
    id ∈ get_ready_tasks tasks ↔
      ∃ info, tasks.lookup id = some info ∧ info.state = Pending ∧
        ∀ d ∈ info.dependencies,
          ∃ dinfo, tasks.lookup d = some dinfo ∧ dinfo.state = Completed := by
  unfold get_ready_tasks
  constructor
  · intro h
    obtain ⟨⟨k, info⟩, hmem, rfl⟩ := List.mem_map.mp h
    have hmem' := List.mem_filter.mp hmem
    have hp := hmem'.2
    simp only [Bool.and_eq_true, beq_iff_eq, List.all_eq_true] at hp
    refine ⟨info, lookup_eq_some_of_mem hnd hmem'.1, hp.1, fun d hd => ?_⟩
    have hdc := hp.2 d hd
    unfold depCompleted at hdc
    cases hl : tasks.lookup d with
    | none => rw [hl] at hdc; simp at hdc
    | some dinfo =>
        rw [hl] at hdc
        simp only [beq_iff_eq] at hdc
        exact ⟨dinfo, rfl, hdc⟩
  · rintro ⟨info, hlook, hstate, hdeps⟩
    refine List.mem_map.mpr
      ⟨(id, info), List.mem_filter.mpr ⟨mem_of_lookup_eq_some hlook, ?_⟩, rfl⟩
    simp only [Bool.and_eq_true, beq_iff_eq, List.all_eq_true]
    refine ⟨hstate, fun d hd => ?_⟩
    obtain ⟨dinfo, hdl, hdc⟩ := hdeps d hd
    unfold depCompleted
    rw [hdl]
    simp [hdc]

/-- C7 witness: on the sample map, `b` is ready (Pending with its one
dependency Completed), while the returned list is exactly `["b"]`, so the
dangling-dependency task `c` and the running task `d` are omitted. -/
theorem get_ready_tasks_spec_witness :
    (∃ info, sampleTasks.lookup "b" = some info ∧ info.state = TaskState.Pending ∧
      ∀ d ∈ info.dependencies,
        ∃ dinfo, sampleTasks.lookup d = some dinfo ∧
          dinfo.state = TaskState.Completed) ∧
    get_ready_tasks sampleTasks = ["b"] :=
  ⟨(get_ready_tasks_spec sampleTasks (by decide) "b").mp (by decide), by decide⟩

/-- Helper: every registered id has a `lookup` image. -/
theorem exists_lookup_of_mem_keys {tasks : Tasks} {u : String}
    (h : u ∈ taskKeys tasks) : ∃ info, tasks.lookup u = some info := by
  induction tasks with
  | nil => simp [taskKeys] at h
  | cons p rest ih =>
      rcases List.mem_cons.mp h with h | h
      · exact ⟨p.2, by simp [List.lookup, h]⟩
      · by_cases hk : u = p.1
        · exact ⟨p.2, by simp [List.lookup, hk]⟩
        · obtain ⟨info, hinfo⟩ := ih h
          exact ⟨info, by
            rw [List.lookup, show (u == p.1) = false from beq_eq_false_iff_ne.mpr hk]
            exact hinfo⟩

/-- Helper: a `lookup` hit means the id is registered. -/
theorem mem_keys_of_lookup {tasks : Tasks} {u : String} {info : TaskInfo}
    (h : tasks.lookup u = some info) : u ∈ taskKeys tasks :=
  List.mem_map.mpr ⟨(u, info), mem_of_lookup_eq_some h, rfl⟩

/-- Helper: all adjacency-list entries are registered ids. -/
theorem mem_keys_of_mem_adjOf {tasks : Tasks} {d u : String}
    (h : u ∈ adjOf tasks d) : u ∈ taskKeys tasks := by
  unfold adjOf at h
  obtain ⟨p, hp, hu⟩ := List.mem_flatMap.mp h
  obtain ⟨_, _, rfl⟩ := List.mem_map.mp hu
  exact List.mem_map.mpr ⟨p, hp, rfl⟩

/-- Helper: with distinct keys, the adjacency list of `d` holds a registered
task `u` once per occurrence of `d` among the dependencies of `u`. -/
theorem count_adjOf {tasks : Tasks} (hnd : (taskKeys tasks).Nodup)
    {u : String} {info : TaskInfo} (hu : tasks.lookup u = some info) (d : String) :
    (adjOf tasks d).count u = info.dependencies.count d := by
  induction tasks with
  | nil => simp [List.lookup] at hu
  | cons p rest ih =>
      simp only [taskKeys, List.map_cons, List.nodup_cons] at hnd
      rw [List.lookup] at hu
      unfold adjOf
      rw [List.flatMap_cons, List.count_append]
      by_cases hk : u = p.1
      · rw [show (u == p.1) = true from beq_iff_eq.mpr hk] at hu
        cases hu
        have hcount1 : ((p.2.dependencies.filter (fun x => x == d)).map
            (fun _ => p.1)).count u = p.2.dependencies.count d := by
          rw [hk]
          rw [List.count_eq_countP, List.countP_map]
          simp only [Function.comp_def, beq_self_eq_true, List.countP_true]
          rw [List.count_eq_countP, List.countP_eq_length_filter]
        have hcount2 : (adjOf rest d).count u = 0 := by
          apply List.count_eq_zero_of_not_mem
          intro hmem
          exact hnd.1 (hk ▸ mem_keys_of_mem_adjOf hmem)
        unfold adjOf at hcount2
        rw [hcount1, hcount2]
        exact Nat.add_zero _
      · rw [show (u == p.1) = false from beq_eq_false_iff_ne.mpr hk] at hu
        have hcount1 : ((p.2.dependencies.filter (fun x => x == d)).map
            (fun _ => p.1)).count u = 0 := by
          apply List.count_eq_zero_of_not_mem
          intro hmem
          obtain ⟨_, _, h⟩ := List.mem_map.mp hmem
          exact hk h.symm
        have := ih hnd.2 hu
        unfold adjOf at this
        rw [hcount1, this]
        exact Nat.zero_add _

/-- Helper: the exact effect of the neighbor-decrement loop: each neighbor's
degree drops by its multiplicity in the neighbor list, and the stack gains
exactly the ids whose degree thereby reaches zero. -/
theorem processNeighbors_spec (ns : List String) :
    ∀ (deg : String → Nat) (queue : List String),
    queue.Nodup →
    (∀ u ∈ ns, ns.count u ≤ deg u) →
    (∀ u ∈ ns, u ∉ queue) →
    (∀ u, (processNeighbors ns deg queue).1 u = deg u - ns.count u) ∧
    (∀ u, u ∈ (processNeighbors ns deg queue).2 ↔
        u ∈ queue ∨ (u ∈ ns ∧ deg u = ns.count u)) ∧
    (processNeighbors ns deg queue).2.Nodup := by
  induction ns with
  | nil =>
      intro deg queue hq _ _
      exact ⟨fun u => by simp [processNeighbors],
        fun u => by simp [processNeighbors], by simpa [processNeighbors] using hq⟩
  | cons n rest ih =>
      intro deg queue hq hcount hdisj
      have hnq : n ∉ queue := hdisj n (List.mem_cons_self n rest)
      have hdegn : rest.count n + 1 ≤ deg n := by
        have := hcount n (List.mem_cons_self n rest)
        simpa using this
      have hstep : processNeighbors (n :: rest) deg queue =
          processNeighbors rest (fun u => if u = n then deg n - 1 else deg u)
            (if deg n - 1 = 0 then n :: queue else queue) := rfl
      set deg2 : String → Nat := fun u => if u = n then deg n - 1 else deg u with hdeg2
      set queue2 : List String := if deg n - 1 = 0 then n :: queue else queue with hqueue2
      have hq2 : queue2.Nodup := by
        rw [hqueue2]
        split
        · exact List.nodup_cons.mpr ⟨hnq, hq⟩
        · exact hq
      have hcount2 : ∀ u ∈ rest, rest.count u ≤ deg2 u := by
        intro u hu
        by_cases hun : u = n
        · subst hun
          simp only [hdeg2, if_pos rfl]
          have : (u :: rest).count u = rest.count u + 1 := List.count_cons_self u rest
          omega
        · simp only [hdeg2, if_neg hun]
          have := hcount u (List.mem_cons_of_mem _ hu)
          rwa [List.count_cons, if_neg (by simpa using Ne.symm hun), Nat.add_zero] at this
      have hdisj2 : ∀ u ∈ rest, u ∉ queue2 := by
        intro u hu
        rw [hqueue2]
        split
        · next hzero =>
            intro hmem
            rcases List.mem_cons.mp hmem with rfl | hmem
            · have : (u :: rest).count u = rest.count u + 1 := List.count_cons_self u rest
              have hpos : 0 < rest.count u := List.count_pos_iff.mpr hu
              omega
            · exact hdisj u (List.mem_cons_of_mem _ hu) hmem
        · exact hdisj u (List.mem_cons_of_mem _ hu)
      obtain ⟨ihdeg, ihmem, ihnodup⟩ := ih deg2 queue2 hq2 hcount2 hdisj2
      rw [hstep]
      refine ⟨?_, ?_, ihnodup⟩
      · intro u
        rw [ihdeg u]
        by_cases hun : u = n
        · subst hun
          simp only [hdeg2, if_pos rfl, List.count_cons_self]
          omega
        · simp only [hdeg2, if_neg hun]
          rw [List.count_cons, if_neg (by simpa using Ne.symm hun), Nat.add_zero]
      · intro u
        rw [ihmem u]
        by_cases hun : u = n
        · subst hun
          have hmemq2 : u ∈ queue2 ↔ deg u - 1 = 0 := by
            rw [hqueue2]
            split
            · next hz => simp [hz]
            · next hz => simp [hnq, hz]
          constructor
          · rintro (h2 | ⟨hur, h2⟩)
            · rw [hmemq2] at h2
              refine Or.inr ⟨List.mem_cons_self u rest, ?_⟩
              by_cases hur : u ∈ rest
              · have hpos : 0 < rest.count u := List.count_pos_iff.mpr hur
                simp only [hdeg2, if_pos rfl] at *
                omega
              · rw [List.count_cons_self, List.count_eq_zero_of_not_mem hur]
                omega
            · simp only [hdeg2, if_pos rfl] at h2
              refine Or.inr ⟨List.mem_cons_self u rest, ?_⟩
              rw [List.count_cons_self]
              omega
          · rintro (h2 | ⟨_, h2⟩)
            · exact absurd h2 hnq
            · rw [List.count_cons_self] at h2
              by_cases hur : u ∈ rest
              · refine Or.inr ⟨hur, ?_⟩
                simp only [hdeg2, if_pos rfl]
                omega
              · refine Or.inl ?_
                rw [hmemq2]
                rw [List.count_eq_zero_of_not_mem hur] at h2
                omega
        · have hcu : (n :: rest).count u = rest.count u := by
            rw [List.count_cons, if_neg (by simpa using Ne.symm hun), Nat.add_zero]
          have hmemq2 : u ∈ queue2 ↔ u ∈ queue := by
            rw [hqueue2]
            split
            · simp [hun]
            · exact Iff.rfl
          rw [hmemq2, hcu]
          simp only [hdeg2, if_neg hun]
          constructor
          · rintro (h2 | ⟨hur, h2⟩)
            · exact Or.inl h2
            · exact Or.inr ⟨List.mem_cons_of_mem _ hur, h2⟩
          · rintro (h2 | ⟨hur, h2⟩)
            · exact Or.inl h2
            · rcases List.mem_cons.mp hur with rfl | hur
              · exact absurd rfl hun
              · exact Or.inr ⟨hur, h2⟩

/-- Helper: a zero remaining degree means every dependency is emitted. -/
theorem remainingDeg_zero_iff (tasks : Tasks) (result : List String) (t : String) :
    remainingDeg tasks result t = 0 ↔ ∀ d ∈ depsOf tasks t, d ∈ result := by
  unfold remainingDeg
  rw [List.length_eq_zero, List.filter_eq_nil_iff]
  constructor
  · intro h d hd
    have := h d hd
    simpa [List.contains] using this
  · intro h d hd
    simp [List.contains, h d hd]

/-- Helper list fact behind `remainingDeg_append_out`. -/
theorem countP_not_contains_append (result : List String) (node : String)
    (h : node ∉ result) (l : List String) :
    l.countP (fun d => !(result.contains d)) =
      l.countP (fun d => !((result ++ [node]).contains d)) + l.count node := by
  induction l with
  | nil => simp
  | cons d ds ih =>
      by_cases hd : d = node
      · subst hd
        have h1 : (!(result.contains d)) = true := by simp [List.contains, h]
        have h2 : ¬ ((!((result ++ [d]).contains d)) = true) := by simp [List.contains]
        rw [List.countP_cons_of_pos (fun x => !(result.contains x)) _ h1,
          List.countP_cons_of_neg (fun x => !((result ++ [d]).contains x)) _ h2,
          List.count_cons_self, ih]
        omega
      · have h2 : ((result ++ [node]).contains d) = (result.contains d) := by
          simp [List.contains, hd]
        rw [List.countP_cons, List.countP_cons, h2, List.count_cons,
          show (d == node) = false from beq_eq_false_iff_ne.mpr hd, ih]
        simp only [Bool.false_eq_true, if_false]
        omega

/-- Helper: emitting one more node lowers each remaining degree by the
node's multiplicity among the task's dependencies. -/
theorem remainingDeg_append_out (tasks : Tasks) (result : List String) (node : String)
    (h : node ∉ result) (t : String) :
    remainingDeg tasks result t =
      remainingDeg tasks (result ++ [node]) t + (depsOf tasks t).count node := by
  unfold remainingDeg
  rw [← List.countP_eq_length_filter, ← List.countP_eq_length_filter]
  exact countP_not_contains_append result node h (depsOf tasks t)

/-- Helper: one iteration of the Kahn loop body preserves the invariant,
moving the popped node from the stack to the emitted prefix. -/
theorem kahnInv_step (tasks : Tasks) (hnd : (taskKeys tasks).Nodup)
    {deg : String → Nat} {node : String} {queue result : List String}
    (hinv : KahnInv tasks deg (node :: queue) result) :
    KahnInv tasks (processNeighbors (adjOf tasks node) deg queue).1
      (processNeighbors (adjOf tasks node) deg queue).2 (result ++ [node]) := by
  obtain ⟨rnd, qnd, disj, rkeys, qkeys, dege, ziff, ord⟩ := hinv
  have hnodekeys : node ∈ taskKeys tasks := qkeys node (List.mem_cons_self _ _)
  have hnodenr : node ∉ result := disj node (List.mem_cons_self _ _)
  have hnodeq : node ∉ queue := (List.nodup_cons.mp qnd).1
  have hqnd : queue.Nodup := (List.nodup_cons.mp qnd).2
  have hdegnode : deg node = 0 :=
    (ziff node hnodekeys).mpr (Or.inr (List.mem_cons_self _ _))
  have hdepsnode : ∀ d ∈ depsOf tasks node, d ∈ result := by
    rw [← remainingDeg_zero_iff, ← dege node hnodekeys]
    exact hdegnode
  have hcount_eq : ∀ u ∈ taskKeys tasks,
      (adjOf tasks node).count u = (depsOf tasks u).count node := by
    intro u hu
    obtain ⟨info, hinfo⟩ := exists_lookup_of_mem_keys hu
    rw [count_adjOf hnd hinfo node]
    unfold depsOf
    rw [hinfo]
  have hdegsum : ∀ u ∈ taskKeys tasks,
      deg u = remainingDeg tasks (result ++ [node]) u + (adjOf tasks node).count u := by
    intro u hu
    rw [dege u hu, remainingDeg_append_out tasks result node hnodenr u,
      hcount_eq u hu]
  have hdeg_ge : ∀ u ∈ adjOf tasks node, (adjOf tasks node).count u ≤ deg u := by
    intro u hu
    rw [hdegsum u (mem_keys_of_mem_adjOf hu)]
    exact Nat.le_add_left _ _
  have hdeg_pos : ∀ u ∈ adjOf tasks node, 0 < deg u := by
    intro u hu
    have h1 := hdeg_ge u hu
    have h2 : 0 < (adjOf tasks node).count u := List.count_pos_iff.mpr hu
    omega
  have hdisjq : ∀ u ∈ adjOf tasks node, u ∉ queue := by
    intro u hu hmem
    have h0 : deg u = 0 := (ziff u (mem_keys_of_mem_adjOf hu)).mpr
      (Or.inr (List.mem_cons_of_mem _ hmem))
    have := hdeg_pos u hu
    omega
  have hdisjr : ∀ u ∈ adjOf tasks node, u ∉ result := by
    intro u hu hmem
    have h0 : deg u = 0 := (ziff u (mem_keys_of_mem_adjOf hu)).mpr (Or.inl hmem)
    have := hdeg_pos u hu
    omega
  obtain ⟨hdeg', hmem', hnodup'⟩ :=
    processNeighbors_spec (adjOf tasks node) deg queue hqnd hdeg_ge hdisjq
  refine ⟨?_, hnodup', ?_, ?_, ?_, ?_, ?_, ?_⟩
  · exact List.nodup_append.mpr ⟨rnd, List.nodup_singleton node,
      fun a ha hb => hnodenr ((List.mem_singleton.mp hb) ▸ ha)⟩
  · intro u hu
    rw [hmem' u] at hu
    rcases hu with hu | ⟨huns, hdegeq⟩
    · intro hmem
      rcases List.mem_append.mp hmem with hmem | hmem
      · exact disj u (List.mem_cons_of_mem _ hu) hmem
      · exact hnodeq ((List.mem_singleton.mp hmem) ▸ hu)
    · intro hmem
      rcases List.mem_append.mp hmem with hmem | hmem
      · exact hdisjr u huns hmem
      · have := hdeg_pos u huns
        rw [List.mem_singleton.mp hmem] at this
        omega
  · intro u hu
    rcases List.mem_append.mp hu with hu | hu
    · exact rkeys u hu
    · exact (List.mem_singleton.mp hu) ▸ hnodekeys
  · intro u hu
    rw [hmem' u] at hu
    rcases hu with hu | ⟨huns, _⟩
    · exact qkeys u (List.mem_cons_of_mem _ hu)
    · exact mem_keys_of_mem_adjOf huns
  · intro t ht
    rw [hdeg' t, hdegsum t ht]
    omega
  · intro t ht
    rw [hdeg' t]
    by_cases h1 : t ∈ result
    · have h0 : deg t = 0 := (ziff t ht).mpr (Or.inl h1)
      constructor
      · intro _
        exact Or.inl (List.mem_append.mpr (Or.inl h1))
      · intro _
        omega
    · by_cases h2 : t = node
      · subst h2
        constructor
        · intro _
          exact Or.inl (List.mem_append.mpr (Or.inr (List.mem_singleton.mpr rfl)))
        · intro _
          omega
      · by_cases h3 : t ∈ queue
        · have h0 : deg t = 0 := (ziff t ht).mpr (Or.inr (List.mem_cons_of_mem _ h3))
          constructor
          · intro _
            exact Or.inr ((hmem' t).mpr (Or.inl h3))
          · intro _
            omega
        · have hne0 : deg t ≠ 0 := by
            intro h0
            rcases (ziff t ht).mp h0 with hmem | hmem
            · exact h1 hmem
            · rcases List.mem_cons.mp hmem with hmem | hmem
              · exact h2 hmem
              · exact h3 hmem
          have hnotr : t ∉ result ++ [node] := by
            intro hmem
            rcases List.mem_append.mp hmem with hmem | hmem
            · exact h1 hmem
            · exact h2 (List.mem_singleton.mp hmem)
          by_cases h4 : t ∈ adjOf tasks node
          · have hle := hdeg_ge t h4
            constructor
            · intro hz
              exact Or.inr ((hmem' t).mpr (Or.inr ⟨h4, by omega⟩))
            · intro hmem
              rcases hmem with hmem | hmem
              · exact absurd hmem hnotr
              · rcases (hmem' t).mp hmem with hmem | ⟨_, hcnt⟩
                · exact absurd hmem h3
                · omega
          · have hc0 : (adjOf tasks node).count t = 0 :=
              List.count_eq_zero_of_not_mem h4
            constructor
            · intro hz
              rw [hc0] at hz
              omega
            · intro hmem
              rcases hmem with hmem | hmem
              · exact absurd hmem hnotr
              · rcases (hmem' t).mp hmem with hmem | ⟨hmem, _⟩
                · exact absurd hmem h3
                · exact absurd hmem h4
  · intro t ht d hd
    rcases List.mem_append.mp ht with ht | ht
    · obtain ⟨hdr, hidx⟩ := ord t ht d hd
      refine ⟨List.mem_append.mpr (Or.inl hdr), ?_⟩
      rw [List.indexOf_append_of_mem hdr, List.indexOf_append_of_mem ht]
      exact hidx
    · rw [List.mem_singleton.mp ht] at hd ⊢
      have hdr : d ∈ result := hdepsnode d hd
      refine ⟨List.mem_append.mpr (Or.inl hdr), ?_⟩
      rw [List.indexOf_append_of_mem hdr, List.indexOf_append_of_not_mem hnodenr,
        List.indexOf_cons_self, Nat.add_zero]
      exact List.indexOf_lt_length.mpr hdr

/-- Helper: the invariant holds at the start of the Kahn loop. -/
theorem kahnInv_init (tasks : Tasks) (hnd : (taskKeys tasks).Nodup) :
    KahnInv tasks (initDeg tasks)
      ((taskKeys tasks).filter (fun t => initDeg tasks t == 0)) [] := by
  refine ⟨List.nodup_nil, hnd.filter _, ?_, ?_, ?_, ?_, ?_, ?_⟩
  · intro u _
    simp
  · intro u hu
    simp at hu
  · intro u hu
    exact (List.mem_filter.mp hu).1
  · intro t _
    unfold initDeg remainingDeg
    simp [List.contains]
  · intro t ht
    constructor
    · intro h0
      exact Or.inr (List.mem_filter.mpr ⟨ht, by simpa using h0⟩)
    · rintro (h | h)
      · simp at h
      · simpa using (List.mem_filter.mp h).2
  · intro t ht
    simp at ht

/-- Helper: the Kahn loop drains its stack and returns a state satisfying the
invariant with an empty stack, provided the fuel covers the missing nodes. -/
theorem kahnLoop_inv (tasks : Tasks) (hnd : (taskKeys tasks).Nodup) :
    ∀ (fuel : Nat) (deg : String → Nat) (queue result : List String),
    KahnInv tasks deg queue result →
    tasks.length ≤ fuel + result.length →
    ∃ degF, KahnInv tasks degF []
      (kahnLoop (adjOf tasks) fuel deg queue result) := by
  intro fuel
  induction fuel with
  | zero =>
      intro deg queue result hinv hfuel
      cases queue with
      | nil => exact ⟨deg, by simpa [kahnLoop] using hinv⟩
      | cons q qs =>
          exfalso
          have hsub : result.toFinset ⊆ (taskKeys tasks).toFinset := fun x hx =>
            List.mem_toFinset.mpr (hinv.result_keys x (List.mem_toFinset.mp hx))
          have hcard1 : result.toFinset.card = result.length :=
            List.toFinset_card_of_nodup hinv.result_nodup
          have hcard2 : (taskKeys tasks).toFinset.card = tasks.length := by
            rw [List.toFinset_card_of_nodup hnd]
            simp [taskKeys]
          have hle : (taskKeys tasks).toFinset.card ≤ result.toFinset.card := by omega
          have heq : result.toFinset = (taskKeys tasks).toFinset :=
            (Finset.eq_of_subset_of_card_le hsub hle).symm ▸ rfl
          have hq : q ∈ result := by
            have hq1 : q ∈ (taskKeys tasks).toFinset :=
              List.mem_toFinset.mpr (hinv.queue_keys q (List.mem_cons_self _ _))
            rw [← Finset.eq_of_subset_of_card_le hsub hle] at hq1
            exact List.mem_toFinset.mp hq1
          exact hinv.disj q (List.mem_cons_self _ _) hq
  | succ fuel ih =>
      intro deg queue result hinv hfuel
      cases queue with
      | nil => exact ⟨deg, by simpa [kahnLoop] using hinv⟩
      | cons node qs =>
          have hstep := kahnInv_step tasks hnd hinv
          have hrec := ih _ _ _ hstep
            (by simp only [List.length_append, List.length_singleton]; omega)
          simpa [kahnLoop] using hrec

/-- Helper: the Kahn output satisfies the invariant with an empty stack. -/
theorem kahnOutput_inv (tasks : Tasks) (hnd : (taskKeys tasks).Nodup) :
    ∃ degF, KahnInv tasks degF [] (kahnOutput tasks) := by
  unfold kahnOutput
  exact kahnLoop_inv tasks hnd tasks.length _ _ _ (kahnInv_init tasks hnd) (by simp)

/-- Helper: the Kahn output never exceeds the number of registered tasks. -/
theorem kahnOutput_length_le (tasks : Tasks) (hnd : (taskKeys tasks).Nodup) :
    (kahnOutput tasks).length ≤ tasks.length := by
  obtain ⟨degF, inv⟩ := kahnOutput_inv tasks hnd
  have hsub : (kahnOutput tasks).toFinset ⊆ (taskKeys tasks).toFinset := fun x hx =>
    List.mem_toFinset.mpr (inv.result_keys x (List.mem_toFinset.mp hx))
  have hcard := Finset.card_le_card hsub
  rwa [List.toFinset_card_of_nodup inv.result_nodup,
    List.toFinset_card_of_nodup hnd,
    show (taskKeys tasks).length = tasks.length from by simp [taskKeys]] at hcard

/-- Helper: an id missed by the Kahn output forces a strictly short output. -/
theorem kahnOutput_length_lt (tasks : Tasks) (hnd : (taskKeys tasks).Nodup)
    {x : String} (hxk : x ∈ taskKeys tasks) (hxnot : x ∉ kahnOutput tasks) :
    (kahnOutput tasks).length < tasks.length := by
  obtain ⟨degF, inv⟩ := kahnOutput_inv tasks hnd
  have hsub : (kahnOutput tasks).toFinset ⊆ (taskKeys tasks).toFinset := fun a ha =>
    List.mem_toFinset.mpr (inv.result_keys a (List.mem_toFinset.mp ha))
  have hss : (kahnOutput tasks).toFinset ⊂ (taskKeys tasks).toFinset := by
    refine ⟨hsub, fun hsup => ?_⟩
    exact hxnot (List.mem_toFinset.mp (hsup (List.mem_toFinset.mpr hxk)))
  have hcard := Finset.card_lt_card hss
  rwa [List.toFinset_card_of_nodup inv.result_nodup,
    List.toFinset_card_of_nodup hnd,
    show (taskKeys tasks).length = tasks.length from by simp [taskKeys]] at hcard

/-- Helper: a chain step relation transports to the last chain element under
transitivity. -/
theorem chain_rel_getLast {r : String → String → Prop}
    (htrans : ∀ a b c, r a b → r b c → r a c) :
    ∀ (l : List String) (u v : String), List.Chain r u l →
      l.getLast? = some v → r u v := by
  intro l
  induction l with
  | nil =>
      intro u v _ hlast
      simp at hlast
  | cons x xs ih =>
      intro u v hchain hlast
      obtain ⟨hux, hxchain⟩ := List.chain_cons.mp hchain
      cases xs with
      | nil =>
          have hvx : x = v := by simpa using hlast
          exact hvx ▸ hux
      | cons y ys =>
          have hlast' : (y :: ys).getLast? = some v := by
            simpa using hlast
          exact htrans u x v hux (ih x v hxchain hlast')

/-- Helper: strengthen a chain using information about its members. -/
theorem chain_imp_of_mem {r s : String → String → Prop} :
    ∀ (l : List String) (u : String), List.Chain r u l →
      (∀ b ∈ l, ∀ a, r a b → s a b) → List.Chain s u l := by
  intro l
  induction l with
  | nil =>
      intro u _ _
      exact List.Chain.nil
  | cons x xs ih =>
      intro u hchain hstr
      obtain ⟨hux, hx⟩ := List.chain_cons.mp hchain
      exact List.chain_cons.mpr ⟨hstr x (List.mem_cons_self _ _) u hux,
        ih x hx (fun b hb a hab => hstr b (List.mem_cons_of_mem _ hb) a hab)⟩

/-- Helper: every element of a chain list is an edge target. -/
theorem chain_targets {r : String → String → Prop} {P : String → Prop}
    (hP : ∀ a b, r a b → P b) :
    ∀ (l : List String) (u : String), List.Chain r u l → ∀ x ∈ l, P x := by
  intro l
  induction l with
  | nil =>
      intro u _ x hx
      simp at hx
  | cons y ys ih =>
      intro u hchain x hx
      obtain ⟨huy, hy⟩ := List.chain_cons.mp hchain
      rcases List.mem_cons.mp hx with rfl | hx
      · exact hP u x huy
      · exact ih y hy x hx

/-- Helper: the reversed iterate trace is a chain along the step relation. -/
theorem chain_descendChain (g : Nat → String) {r : String → String → Prop}
    (hstep : ∀ k, r (g (k + 1)) (g k)) :
    ∀ n, List.Chain r (g n) (descendChain g n) := by
  intro n
  induction n with
  | zero => exact List.Chain.nil
  | succ n ih => exact List.chain_cons.mpr ⟨hstep n, ih⟩

/-- Helper: the reversed iterate trace of positive length ends at the start
point of the iteration. -/
theorem getLast_descendChain (g : Nat → String) :
    ∀ n, 0 < n → (descendChain g n).getLast? = some (g 0) := by
  intro n
  induction n with
  | zero =>
      intro h
      omega
  | succ n ih =>
      intro _
      cases hn : n with
      | zero => simp [descendChain]
      | succ m =>
          subst hn
          have hih := ih (Nat.succ_pos m)
          show (g (m + 1) :: descendChain g (m + 1)).getLast? = some (g 0)
          rw [show descendChain g (m + 1) = g m :: descendChain g m from rfl,
            List.getLast?_cons_cons]
          exact hih

/-- Helper: a graph admitting a strictly increasing rank has no cycle; used
by witnesses to discharge acyclicity on concrete graphs. -/
theorem no_cycle_of_rank (tasks : Tasks) (rank : String → Nat)
    (h : ∀ d t, Edge tasks d t → rank d < rank t) : ¬ HasCycle tasks := by
  rintro ⟨u, l, hchain, hlast⟩
  have hchain' : List.Chain (fun a b => rank a < rank b) u l :=
    List.Chain.imp (fun a b hab => h a b hab) hchain
  have := chain_rel_getLast (r := fun a b => rank a < rank b)
    (fun a b c hab hbc => Nat.lt_trans hab hbc) l u u hchain' hlast
  omega

/-- Helper: a finite set in which every element has a predecessor along a
dependency edge contains a cycle. -/
theorem hasCycle_of_pred (tasks : Tasks) (S : Finset String) (hS : S.Nonempty)
    (h : ∀ u ∈ S, ∃ d ∈ S, Edge tasks d u) : HasCycle tasks := by
  classical
  have hch : ∀ u : String, ∃ d : String, u ∈ S → d ∈ S ∧ Edge tasks d u := by
    intro u
    by_cases hu : u ∈ S
    · obtain ⟨d, hdS, hde⟩ := h u hu
      exact ⟨d, fun _ => ⟨hdS, hde⟩⟩
    · exact ⟨u, fun h' => absurd h' hu⟩
  choose f hf using hch
  obtain ⟨u0, hu0⟩ := hS
  have hgS : ∀ n, f^[n] u0 ∈ S := by
    intro n
    induction n with
    | zero => simpa using hu0
    | succ n ihn =>
        rw [Function.iterate_succ_apply']
        exact (hf (f^[n] u0) ihn).1
  have hedge : ∀ n, Edge tasks (f^[n + 1] u0) (f^[n] u0) := by
    intro n
    rw [Function.iterate_succ_apply']
    exact (hf (f^[n] u0) (hgS n)).2
  have hmaps : ∀ n ∈ Finset.range (S.card + 1), f^[n] u0 ∈ S := fun n _ => hgS n
  have hcard : S.card < (Finset.range (S.card + 1)).card := by simp
  obtain ⟨i, _, j, _, hne, heq⟩ :=
    Finset.exists_ne_map_eq_of_card_lt_of_maps_to hcard hmaps
  have hlt : ∃ a b, a < b ∧ f^[a] u0 = f^[b] u0 := by
    rcases lt_or_gt_of_ne hne with hij | hij
    · exact ⟨i, j, hij, heq⟩
    · exact ⟨j, i, hij, heq.symm⟩
  obtain ⟨a, b, hab, hgab⟩ := hlt
  have hstep' : ∀ k, Edge tasks (f^[a + (k + 1)] u0) (f^[a + k] u0) := by
    intro k
    have harith : a + (k + 1) = (a + k) + 1 := by omega
    rw [harith]
    exact hedge (a + k)
  have hchain := chain_descendChain (fun k => f^[a + k] u0) hstep' (b - a)
  have hlast := getLast_descendChain (fun k => f^[a + k] u0) (b - a) (by omega)
  refine ⟨f^[a + (b - a)] u0, descendChain (fun k => f^[a + k] u0) (b - a), hchain, ?_⟩
  rw [hlast]
  show some (f^[a + 0] u0) = some (f^[a + (b - a)] u0)
  rw [Nat.add_zero, show a + (b - a) = b from by omega]
  exact congrArg some hgab

/-- C1: on an acyclic dependency graph whose dependencies are all registered,
`get_execution_order` succeeds with a sequence that contains every registered
identifier exactly once (it is duplicate-free and covers exactly the
registered ids) and in which every dependency of a task is placed strictly
before that task. -/
theorem get_execution_order_topo (tasks : Tasks)
    (hnd : (taskKeys tasks).Nodup)
    (hreg : ∀ t ∈ taskKeys tasks, ∀ d ∈ depsOf tasks t, d ∈ taskKeys tasks)
    (hacyc : ¬ HasCycle tasks) :
    ∃ order, get_execution_order tasks = .ok order ∧ order.Nodup ∧
      (∀ id, id ∈ order ↔ id ∈ taskKeys tasks) ∧
      ∀ t ∈ order, ∀ d ∈ depsOf tasks t,
        d ∈ order ∧ order.indexOf d < order.indexOf t := by
  obtain ⟨degF, inv⟩ := kahnOutput_inv tasks hnd
  have hcompl : ∀ t ∈ taskKeys tasks, t ∈ kahnOutput tasks := by
    by_contra hc
    push_neg at hc
    obtain ⟨t0, ht0k, ht0⟩ := hc
    classical
    set S : Finset String :=
      (taskKeys tasks).toFinset.filter (fun u => u ∉ kahnOutput tasks) with hS
    have hSmem : ∀ u, u ∈ S ↔ u ∈ taskKeys tasks ∧ u ∉ kahnOutput tasks := by
      intro u
      simp [hS]
    have hS0 : t0 ∈ S := (hSmem t0).mpr ⟨ht0k, ht0⟩
    have hpred : ∀ u ∈ S, ∃ d ∈ S, Edge tasks d u := by
      intro u hu
      obtain ⟨huk, hunot⟩ := (hSmem u).mp hu
      have hdeg : degF u ≠ 0 := by
        intro h0
        rcases (inv.zero_iff u huk).mp h0 with hm | hm
        · exact hunot hm
        · simp at hm
      have hnall : ¬ ∀ d ∈ depsOf tasks u, d ∈ kahnOutput tasks := by
        rw [← remainingDeg_zero_iff, ← inv.deg_eq u huk]
        exact hdeg
      push_neg at hnall
      obtain ⟨d, hd, hdnot⟩ := hnall
      exact ⟨d, (hSmem d).mpr ⟨hreg u huk d hd, hdnot⟩, ⟨huk, hd⟩⟩
    exact hacyc (hasCycle_of_pred tasks S ⟨t0, hS0⟩ hpred)
  have hiff : ∀ id, id ∈ kahnOutput tasks ↔ id ∈ taskKeys tasks :=
    fun id => ⟨fun h => inv.result_keys id h, fun h => hcompl id h⟩
  have hperm : List.Perm (kahnOutput tasks) (taskKeys tasks) :=
    List.perm_of_nodup_nodup_toFinset_eq inv.result_nodup hnd
      (by
        ext x
        simp only [List.mem_toFinset]
        exact hiff x)
  have hlen : (kahnOutput tasks).length = tasks.length := by
    have h := hperm.length_eq
    simpa [taskKeys] using h
  refine ⟨kahnOutput tasks, ?_, inv.result_nodup, hiff,
    fun t ht d hd => inv.ordered t ht d hd⟩
  simp [get_execution_order, hlen]

/-- C1 witness: on the acyclic chain `b → a` the order is computed, is
exactly `["a", "b"]`, and places the dependency `a` before `b`. -/
theorem get_execution_order_topo_witness :
    ∃ order, get_execution_order chainTasks = .ok order ∧ order.Nodup ∧
      (∀ id, id ∈ order ↔ id ∈ taskKeys chainTasks) ∧
      ∀ t ∈ order, ∀ d ∈ depsOf chainTasks t,
        d ∈ order ∧ order.indexOf d < order.indexOf t :=
  get_execution_order_topo chainTasks (by decide) (by decide)
    (no_cycle_of_rank chainTasks (fun s => if s = "a" then 0 else 1)
      (by
        rintro d t ⟨ht, hd⟩
        have ht' : t = "a" ∨ t = "b" := by
          simpa [taskKeys, chainTasks] using ht
        rcases ht' with rfl | rfl
        · simp [depsOf, chainTasks, List.lookup] at hd
        · have hd' : d = "a" := by
            simpa [depsOf, chainTasks, List.lookup] using hd
          subst hd'
          simp))

/-- C2: `get_execution_order` fails exactly when the Kahn pass emits fewer
ids than there are registered tasks, and on any graph containing a cycle it
does fail, with the circular-dependency error and no partial order. -/
theorem get_execution_order_cycle (tasks : Tasks) (hnd : (taskKeys tasks).Nodup) :
    ((∃ e, get_execution_order tasks = Except.error e) ↔
      (kahnOutput tasks).length < tasks.length) ∧
    (HasCycle tasks →
      get_execution_order tasks = .error "Circular dependency detected in tasks") := by
  constructor
  · constructor
    · rintro ⟨e, he⟩
      by_cases hl : (kahnOutput tasks).length = tasks.length
      · rw [get_execution_order] at he
        simp [hl] at he
      · have := kahnOutput_length_le tasks hnd
        omega
    · intro hlt
      refine ⟨"Circular dependency detected in tasks", ?_⟩
      rw [get_execution_order]
      simp [Nat.ne_of_lt hlt]
  · intro hcyc
    obtain ⟨u, l, hchain, hlast⟩ := hcyc
    have hul : u ∈ l := List.mem_of_getLast?_eq_some hlast
    have htargets : ∀ x ∈ l, x ∈ taskKeys tasks :=
      chain_targets (fun a b hab => hab.1) l u hchain
    obtain ⟨degF, inv⟩ := kahnOutput_inv tasks hnd
    by_cases hall : ∀ x ∈ l, x ∈ kahnOutput tasks
    · exfalso
      have hchain' : List.Chain
          (fun a b => (kahnOutput tasks).indexOf a < (kahnOutput tasks).indexOf b) u l :=
        chain_imp_of_mem l u hchain (fun b hb a hab =>
          (inv.ordered b (hall b hb) a hab.2).2)
      have := chain_rel_getLast
        (r := fun a b => (kahnOutput tasks).indexOf a < (kahnOutput tasks).indexOf b)
        (fun a b c hab hbc => Nat.lt_trans hab hbc) l u u hchain' hlast
      omega
    · push_neg at hall
      obtain ⟨x, hxl, hxnot⟩ := hall
      have hlt := kahnOutput_length_lt tasks hnd (htargets x hxl) hxnot
      rw [get_execution_order]
      simp [Nat.ne_of_lt hlt]

/-- C2 witness: the two-task cycle `a ↔ b` makes `get_execution_order` fail
with the circular-dependency error (its Kahn pass emits nothing). -/
theorem get_execution_order_cycle_witness :
    get_execution_order cycleTasks = .error "Circular dependency detected in tasks" :=
  (get_execution_order_cycle cycleTasks (by decide)).2
    ⟨"a", ["b", "a"],
      List.chain_cons.mpr ⟨⟨by decide, by decide⟩,
        List.chain_cons.mpr ⟨⟨by decide, by decide⟩, List.Chain.nil⟩⟩,
      rfl⟩

/-- C9: a registered task with an unregistered dependency id makes
`get_execution_order` fail with the circular-dependency error even on an
acyclic graph, because the dangling id never enters the in-degree map, so its
dependent is never emitted and the length check fails. -/
theorem get_execution_order_dangling (tasks : Tasks)
    (hnd : (taskKeys tasks).Nodup) (hacyc : ¬ HasCycle tasks)
    (hdang : ∃ t ∈ taskKeys tasks, ∃ d ∈ depsOf tasks t, d ∉ taskKeys tasks) :
    get_execution_order tasks = .error "Circular dependency detected in tasks" := by
  obtain ⟨degF, inv⟩ := kahnOutput_inv tasks hnd
  obtain ⟨t, htk, d, hd, hdnk⟩ := hdang
  have htnot : t ∉ kahnOutput tasks := by
    intro ht
    have h0 : degF t = 0 := (inv.zero_iff t htk).mpr (Or.inl ht)
    have hall : ∀ x ∈ depsOf tasks t, x ∈ kahnOutput tasks := by
      rw [← remainingDeg_zero_iff, ← inv.deg_eq t htk]
      exact h0
    exact hdnk (inv.result_keys d (hall d hd))
  have hlt := kahnOutput_length_lt tasks hnd htk htnot
  rw [get_execution_order]
  simp [Nat.ne_of_lt hlt]

/-- C9 witness: the single task `a` depending on the unregistered `x` is
acyclic yet reported as a circular dependency. -/
theorem get_execution_order_dangling_witness :
    get_execution_order danglingTasks =
      .error "Circular dependency detected in tasks" :=
  get_execution_order_dangling danglingTasks (by decide)
    (no_cycle_of_rank danglingTasks (fun s => if s = "x" then 0 else 1)
      (by
        rintro d t ⟨ht, hd⟩
        have ht' : t = "a" := by
          simpa [taskKeys, danglingTasks] using ht
        subst ht'
        have hd' : d = "x" := by
          simpa [depsOf, danglingTasks, List.lookup] using hd
        subst hd'
        simp))
    ⟨"a", by decide, "x", by decide, by decide⟩

end RustTaskExecutor

/-! ## Theorems: JSON canonicalization (C6) -/

namespace Canon

/-- Helper: the key order is irreflexive. -/
theorem ltChars_irrefl : ∀ l : List Char, ltChars l l = false := by
  intro l
  induction l with
  | nil => rfl
  | cons c cs ih =>
      rw [ltChars, if_neg (Nat.lt_irrefl _), if_neg (Nat.lt_irrefl _)]
      exact ih

/-- Helper: the key order is asymmetric. -/
theorem ltChars_asymm : ∀ l1 l2 : List Char,
    ltChars l1 l2 = true → ltChars l2 l1 = false := by
  intro l1
  induction l1 with
  | nil =>
      intro l2 h
      cases l2 with
      | nil => exact absurd h (by decide)
      | cons c cs => rfl
  | cons c1 cs1 ih =>
      intro l2 h
      cases l2 with
      | nil => cases h
      | cons c2 cs2 =>
          rw [ltChars] at h
          rw [ltChars]
          rcases Nat.lt_trichotomy c1.toNat c2.toNat with hlt | heq | hgt
          · rw [if_neg (by omega), if_pos hlt]
          · rw [if_neg (by omega), if_neg (by omega)] at h
            rw [if_neg (by omega), if_neg (by omega)]
            exact ih cs2 h
          · rw [if_neg (by omega), if_pos hgt] at h
            cases h

/-- Helper: the key order is transitive. -/
theorem ltChars_trans : ∀ l1 l2 l3 : List Char,
    ltChars l1 l2 = true → ltChars l2 l3 = true → ltChars l1 l3 = true := by
  intro l1
  induction l1 with
  | nil =>
      intro l2 l3 h12 h23
      cases l3 with
      | nil =>
          cases l2 with
          | nil => exact h12
          | cons c cs => cases h23
      | cons c3 cs3 => rfl
  | cons c1 cs1 ih =>
      intro l2 l3 h12 h23
      cases l2 with
      | nil => cases h12
      | cons c2 cs2 =>
          cases l3 with
          | nil => cases h23
          | cons c3 cs3 =>
              rw [ltChars] at h12 h23
              rw [ltChars]
              rcases Nat.lt_trichotomy c1.toNat c2.toNat with ha | ha | ha
              · rcases Nat.lt_trichotomy c2.toNat c3.toNat with hb | hb | hb
                · rw [if_pos (by omega)]
                · rw [if_pos (by omega)]
                · rw [if_neg (by omega), if_pos hb] at h23
                  cases h23
              · rcases Nat.lt_trichotomy c2.toNat c3.toNat with hb | hb | hb
                · rw [if_pos (by omega)]
                · rw [if_neg (by omega), if_neg (by omega)] at h12 h23
                  rw [if_neg (by omega), if_neg (by omega)]
                  exact ih cs2 cs3 h12 h23
                · rw [if_neg (by omega), if_pos hb] at h23
                  cases h23
              · rw [if_neg (by omega), if_pos ha] at h12
                cases h12

/-- Helper: two mutually non-less character lists are equal. -/
theorem ltChars_connex : ∀ l1 l2 : List Char,
    ltChars l1 l2 = false → ltChars l2 l1 = false → l1 = l2 := by
  intro l1
  induction l1 with
  | nil =>
      intro l2 h12 _
      cases l2 with
      | nil => rfl
      | cons c cs => cases h12
  | cons c1 cs1 ih =>
      intro l2 h12 h21
      cases l2 with
      | nil => cases h21
      | cons c2 cs2 =>
          rw [ltChars] at h12 h21
          rcases Nat.lt_trichotomy c1.toNat c2.toNat with ha | ha | ha
          · rw [if_pos ha] at h12
            cases h12
          · rw [if_neg (by omega), if_neg (by omega)] at h12 h21
            have hc : c1 = c2 := by
              apply Char.ext
              apply UInt32.ext
              exact ha
            rw [hc, ih cs2 h12 h21]
          · rw [if_pos ha] at h21
            cases h21

/-- Helper: irreflexivity of the string key order. -/
theorem ltStr_irrefl (s : String) : ltStr s s = false :=
  ltChars_irrefl s.data

/-- Helper: asymmetry of the string key order. -/
theorem ltStr_asymm {s1 s2 : String} (h : ltStr s1 s2 = true) :
    ltStr s2 s1 = false :=
  ltChars_asymm s1.data s2.data h

/-- Helper: transitivity of the string key order. -/
theorem ltStr_trans {s1 s2 s3 : String} (h1 : ltStr s1 s2 = true)
    (h2 : ltStr s2 s3 = true) : ltStr s1 s3 = true :=
  ltChars_trans s1.data s2.data s3.data h1 h2

/-- Helper: totality of the string key order. -/
theorem ltStr_connex {s1 s2 : String} (h1 : ltStr s1 s2 = false)
    (h2 : ltStr s2 s1 = false) : s1 = s2 := by
  have hd := ltChars_connex s1.data s2.data h1 h2
  cases s1
  cases s2
  exact congrArg String.mk hd

/-- Helper: a non-less, unequal key is greater. -/
theorem ltStr_of_not_lt_of_ne {s1 s2 : String} (h1 : ltStr s1 s2 = false)
    (h2 : s1 ≠ s2) : ltStr s2 s1 = true := by
  cases h : ltStr s2 s1 with
  | true => rfl
  | false => exact absurd (ltStr_connex h1 h) h2

/-- Helper: every binding of `insertKey k v fs` is the new binding or one of
the old ones. -/
theorem mem_insertKey : ∀ (fs : List (String × Json)) (p : String × Json),
    p ∈ insertKey k v fs → p = (k, v) ∨ p ∈ fs := by
  intro fs
  induction fs with
  | nil =>
      intro p hp
      rw [insertKey] at hp
      exact Or.inl (by simpa using hp)
  | cons q rest ih =>
      intro p hp
      rw [show insertKey k v (q :: rest) =
          (if ltStr k q.1 then (k, v) :: q :: rest
           else if k = q.1 then (k, v) :: rest
           else q :: insertKey k v rest) from by
        cases q
        rw [insertKey]] at hp
      split at hp
      · rcases List.mem_cons.mp hp with rfl | hp
        · exact Or.inl rfl
        · exact Or.inr hp
      · split at hp
        · rcases List.mem_cons.mp hp with rfl | hp
          · exact Or.inl rfl
          · exact Or.inr (List.mem_cons_of_mem _ hp)
        · rcases List.mem_cons.mp hp with rfl | hp
          · exact Or.inr (List.mem_cons_self _ _)
          · rcases ih p hp with h | h
            · exact Or.inl h
            · exact Or.inr (List.mem_cons_of_mem _ h)

/-- Helper: `insertKey` preserves the strictly-sorted-keys invariant. -/
theorem insertKey_pairwise : ∀ (fs : List (String × Json)),
    List.Pairwise (fun p q => ltStr p.1 q.1 = true) fs →
    List.Pairwise (fun p q => ltStr p.1 q.1 = true) (insertKey k v fs) := by
  intro fs
  induction fs with
  | nil =>
      intro _
      rw [insertKey]
      exact List.pairwise_singleton _ _
  | cons q rest ih =>
      intro hs
      obtain ⟨hq, hrest⟩ := List.pairwise_cons.mp hs
      rw [show insertKey k v (q :: rest) =
          (if ltStr k q.1 then (k, v) :: q :: rest
           else if k = q.1 then (k, v) :: rest
           else q :: insertKey k v rest) from by
        cases q
        rw [insertKey]]
      split
      · next hlt =>
          refine List.pairwise_cons.mpr ⟨?_, hs⟩
          intro p hp
          rcases List.mem_cons.mp hp with rfl | hp
          · exact hlt
          · exact ltStr_trans hlt (hq p hp)
      · split
        · next hne heq =>
            refine List.pairwise_cons.mpr ⟨?_, hrest⟩
            intro p hp
            exact heq ▸ hq p hp
        · next hlt hne =>
            refine List.pairwise_cons.mpr ⟨?_, ih hrest⟩
            intro p hp
            rcases mem_insertKey rest p hp with rfl | hp
            · exact ltStr_of_not_lt_of_ne (by simpa using hlt) hne
            · exact hq p hp

/-- Helper: inserting a key greater than every present key appends. -/
theorem insertKey_append : ∀ (acc : List (String × Json)),
    (∀ p ∈ acc, ltStr p.1 k = true) →
    insertKey k v acc = acc ++ [(k, v)] := by
  intro acc
  induction acc with
  | nil =>
      intro _
      rw [insertKey]
      rfl
  | cons q rest ih =>
      intro hall
      have hq : ltStr q.1 k = true := hall q (List.mem_cons_self _ _)
      have h1 : ltStr k q.1 = false := ltStr_asymm hq
      have h2 : k ≠ q.1 := by
        intro h
        rw [h] at hq
        rw [ltStr_irrefl] at hq
        exact Bool.false_ne_true hq
      rw [show insertKey k v (q :: rest) =
          (if ltStr k q.1 then (k, v) :: q :: rest
           else if k = q.1 then (k, v) :: rest
           else q :: insertKey k v rest) from by
        cases q
        rw [insertKey]]
      rw [if_neg (by simp [h1]), if_neg h2,
        ih (fun p hp => hall p (List.mem_cons_of_mem _ hp))]
      rfl

/-- Helper: membership characterization of element-list canonicity. -/
theorem canonicalElems_iff : ∀ es : List Json,
    CanonicalElems es ↔ ∀ e ∈ es, Canonical e := by
  intro es
  induction es with
  | nil => simp [CanonicalElems]
  | cons e es ih =>
      rw [CanonicalElems, ih]
      constructor
      · rintro ⟨h1, h2⟩ x hx
        rcases List.mem_cons.mp hx with rfl | hx
        · exact h1
        · exact h2 x hx
      · intro h
        exact ⟨h e (List.mem_cons_self _ _), fun x hx => h x (List.mem_cons_of_mem _ hx)⟩

/-- Helper: membership characterization of field-list canonicity. -/
theorem canonicalFields_iff : ∀ fs : List (String × Json),
    CanonicalFields fs ↔ ∀ p ∈ fs, Canonical p.2 := by
  intro fs
  induction fs with
  | nil => simp [CanonicalFields]
  | cons p fs ih =>
      rw [show CanonicalFields (p :: fs) = (Canonical p.2 ∧ CanonicalFields fs) from by
        cases p
        rw [CanonicalFields], ih]
      constructor
      · rintro ⟨h1, h2⟩ x hx
        rcases List.mem_cons.mp hx with rfl | hx
        · exact h1
        · exact h2 x hx
      · intro h
        exact ⟨h p (List.mem_cons_self _ _), fun x hx => h x (List.mem_cons_of_mem _ hx)⟩

/-- Helper: `insertKey` preserves canonicity of the stored values. -/
theorem canonicalFields_insertKey {fs : List (String × Json)}
    (hv : Canonical v) (hfs : CanonicalFields fs) :
    CanonicalFields (insertKey k v fs) := by
  rw [canonicalFields_iff]
  intro p hp
  rcases mem_insertKey fs p hp with rfl | hp
  · exact hv
  · exact (canonicalFields_iff fs).mp hfs p hp

/-- Helper: appending one canonical element preserves element canonicity. -/
theorem canonicalElems_append {es : List Json} (h1 : CanonicalElems es)
    (h2 : Canonical v') : CanonicalElems (es ++ [v']) := by
  rw [canonicalElems_iff]
  intro e he
  rcases List.mem_append.mp he with he | he
  · exact (canonicalElems_iff es).mp h1 e he
  · rw [List.mem_singleton.mp he]
    exact h2

/-- Helper: everything the parser produces is canonical — objects are built
by sorted insertion, so they satisfy the `BTreeMap` invariant at every
level. -/
theorem parse_canonical : ∀ fuel : Nat,
    (∀ cs v rest, parseValue fuel cs = some (v, rest) → Canonical v) ∧
    (∀ cs acc v rest, CanonicalElems acc →
      parseElems fuel cs acc = some (v, rest) → Canonical v) ∧
    (∀ cs acc v rest, List.Pairwise (fun p q => ltStr p.1 q.1 = true) acc →
      CanonicalFields acc → parseFields fuel cs acc = some (v, rest) →
      Canonical v) := by
  intro fuel
  induction fuel with
  | zero =>
      refine ⟨?_, ?_, ?_⟩
      · intro cs v rest h
        rw [parseValue] at h
        cases h
      · intro cs acc v rest _ h
        rw [parseElems] at h
        cases h
      · intro cs acc v rest _ _ h
        rw [parseFields] at h
        cases h
  | succ fuel ih =>
      obtain ⟨ih1, ih2, ih3⟩ := ih
      refine ⟨?_, ?_, ?_⟩
      · intro cs v rest h
        rw [parseValue] at h
        split at h
        · cases h
        · split at h
          · split at h
            · cases h
              rw [Canonical]
              trivial
            · cases h
          · split at h
            · split at h
              · cases h
                rw [Canonical]
                trivial
              · cases h
            · split at h
              · split at h
                · cases h
                  rw [Canonical]
                  trivial
                · cases h
              · split at h
                · cases hs : parseStringBody _ with
                  | none =>
                      rw [hs] at h
                      cases h
                  | some p =>
                      rw [hs] at h
                      cases h
                      rw [Canonical]
                      trivial
                · split at h
                  · split at h
                    · cases h
                      rw [Canonical, CanonicalElems]
                      trivial
                    · exact ih2 _ [] v rest (by rw [CanonicalElems]; trivial) h
                  · split at h
                    · split at h
                      · cases h
                        rw [Canonical, CanonicalFields]
                        exact ⟨List.Pairwise.nil, trivial⟩
                      · exact ih3 _ [] v rest List.Pairwise.nil
                          (by rw [CanonicalFields]; trivial) h
                    · split at h
                      · split at h
                        · cases h
                          rw [Canonical]
                          trivial
                        · cases h
                      · split at h
                        · split at h
                          · cases h
                            rw [Canonical]
                            trivial
                          · cases h
                        · cases h
      · intro cs acc v rest hacc h
        rw [parseElems] at h
        split at h
        · cases h
        · next v' rest' heqv =>
            have hv' : Canonical v' := ih1 _ _ _ heqv
            split at h
            · exact ih2 _ _ v rest (canonicalElems_append hacc hv') h
            · cases h
              rw [Canonical]
              exact canonicalElems_append hacc hv'
            · cases h
      · intro cs acc v rest hsorted hacc h
        rw [parseFields] at h
        split at h
        · next cs' =>
            split at h
            · cases h
            · next kchars rest1 heqk =>
                split at h
                · split at h
                  · cases h
                  · next v' rest2 heqv =>
                      have hv' : Canonical v' := ih1 _ _ _ heqv
                      split at h
                      · exact ih3 _ _ v rest
                          (insertKey_pairwise _ hsorted)
                          (canonicalFields_insertKey hv' hacc) h
                      · cases h
                        rw [Canonical]
                        exact ⟨insertKey_pairwise _ hsorted,
                          canonicalFields_insertKey hv' hacc⟩
                      · cases h
                · cases h
        · cases h

/-- Helper: `Char.ofNat` round-trips below the surrogate range. -/
theorem toNat_ofNat_of_lt {m : Nat} (h : m < 55296) : (Char.ofNat m).toNat = m := by
  have hv : m.isValidChar := Or.inl h
  simp [Char.ofNat, hv, Char.toNat, Char.ofNatAux, UInt32.toNat, UInt32.ofNat',
    BitVec.toNat_ofNatLt]

/-- Helper: a rendered digit reads back as its value. -/
theorem digitVal_ofNat {d : Nat} (h : d < 10) :
    digitVal (Char.ofNat (48 + d)) = d := by
  rw [digitVal, toNat_ofNat_of_lt (by omega)]
  omega

/-- Helper: a rendered digit satisfies the digit test. -/
theorem isDigit_ofNat {d : Nat} (h : d < 10) :
    isDigit (Char.ofNat (48 + d)) = true := by
  rw [isDigit, toNat_ofNat_of_lt (by omega)]
  simp
  omega

/-- Helper: the digit-extraction loop renders the standard decimal digits. -/
theorem natToCharsAux_eq : ∀ (fuel n : Nat) (acc : List Char), n ≤ fuel →
    natToCharsAux fuel n acc =
      ((Nat.digits 10 n).reverse.map (fun d => Char.ofNat (48 + d))) ++ acc := by
  intro fuel
  induction fuel with
  | zero =>
      intro n acc h
      have hn : n = 0 := by omega
      subst hn
      simp [natToCharsAux]
  | succ fuel ih =>
      intro n acc h
      rw [natToCharsAux]
      split
      · next h0 =>
          subst h0
          simp
      · next h0 =>
          rw [ih (n / 10) _ (by
            have hlt : n / 10 < n :=
              Nat.div_lt_self (Nat.pos_of_ne_zero h0) (by norm_num)
            omega)]
          rw [Nat.digits_def' (by norm_num : (1 : ℕ) < 10) (Nat.pos_of_ne_zero h0)]
          simp [List.append_assoc]

/-- Helper: folding the digit characters back, most significant first,
recovers the number. -/
theorem foldl_digitVal : ∀ L : List Nat, (∀ d ∈ L, d < 10) →
    (L.reverse.map (fun d => Char.ofNat (48 + d))).foldl
      (fun acc c => acc * 10 + digitVal c) 0 = Nat.ofDigits 10 L := by
  intro L
  induction L with
  | nil => simp [Nat.ofDigits]
  | cons d L ih =>
      intro hL
      rw [List.reverse_cons, List.map_append,
        List.foldl_append, ih (fun x hx => hL x (List.mem_cons_of_mem _ hx))]
      simp only [List.map_cons, List.map_nil, List.foldl_cons, List.foldl_nil]
      rw [digitVal_ofNat (hL d (List.mem_cons_self _ _)), Nat.ofDigits_cons]
      ring

/-- Helper: the rendered decimal of `n` is a nonempty digit string that folds
back to `n`. -/
theorem natToChars_spec (n : Nat) :
    (∀ c ∈ natToChars n, isDigit c = true) ∧
    natToChars n ≠ [] ∧
    (natToChars n).foldl (fun acc c => acc * 10 + digitVal c) 0 = n := by
  by_cases h0 : n = 0
  · subst h0
    refine ⟨?_, by simp [natToChars], by simp [natToChars]; decide⟩
    intro c hc
    rw [natToChars] at hc
    simp at hc
    subst hc
    decide
  · have hrw : natToChars n =
        (Nat.digits 10 n).reverse.map (fun d => Char.ofNat (48 + d)) := by
      rw [natToChars, if_neg h0, natToCharsAux_eq n n [] (Nat.le_refl n)]
      simp
    refine ⟨?_, ?_, ?_⟩
    · intro c hc
      rw [hrw] at hc
      obtain ⟨d, hd, rfl⟩ := List.mem_map.mp hc
      exact isDigit_ofNat
        (Nat.digits_lt_base (by norm_num) (List.mem_reverse.mp hd))
    · rw [hrw]
      simp [Nat.digits_ne_nil_iff_ne_zero.mpr h0]
    · rw [hrw, foldl_digitVal _ (fun d hd => Nat.digits_lt_base (by norm_num) hd),
        Nat.ofDigits_digits]

/-- Helper: splitting a run of satisfied characters off an append. -/
theorem takeWhile_dropWhile_append {p : Char → Bool} :
    ∀ (l1 l2 : List Char), (∀ c ∈ l1, p c = true) →
      (l2 = [] ∨ ∃ c cs, l2 = c :: cs ∧ p c = false) →
      (l1 ++ l2).takeWhile p = l1 ∧ (l1 ++ l2).dropWhile p = l2 := by
  intro l1
  induction l1 with
  | nil =>
      intro l2 _ h2
      rcases h2 with rfl | ⟨c, cs, rfl, hc⟩
      · exact ⟨rfl, rfl⟩
      · simp [List.takeWhile_cons, List.dropWhile_cons, hc]
  | cons c l1 ih =>
      intro l2 h1 h2
      have hc : p c = true := h1 c (List.mem_cons_self _ _)
      obtain ⟨ht, hd⟩ := ih l2 (fun x hx => h1 x (List.mem_cons_of_mem _ hx)) h2
      rw [List.cons_append, List.takeWhile_cons, List.dropWhile_cons]
      simp [hc, ht, hd]

/-- Helper: a rendered natural parses back exactly, given a right context
that cannot extend the digit run. -/
theorem parseNat_natToChars (n : Nat) (rest : List Char) (hrest : restOk rest) :
    parseNat (natToChars n ++ rest) = some (n, rest) := by
  obtain ⟨hdig, hne, hfold⟩ := natToChars_spec n
  have hrest' : rest = [] ∨ ∃ c cs, rest = c :: cs ∧ isDigit c = false := by
    cases rest with
    | nil => exact Or.inl rfl
    | cons c cs =>
        rw [restOk] at hrest
        exact Or.inr ⟨c, cs, rfl, hrest⟩
  obtain ⟨ht, hd⟩ := takeWhile_dropWhile_append (natToChars n) rest hdig hrest'
  rw [parseNat]
  simp only [ht, hd]
  rw [if_neg (by simpa [List.isEmpty_iff] using hne), hfold]

/-- Helper: a rendered hex digit reads back as its value. -/
theorem hexVal_hexDigitChar {d : Nat} (h : d < 16) :
    hexVal (hexDigitChar d) = some d := by
  rw [hexDigitChar]
  by_cases h10 : d < 10
  · rw [if_pos h10, hexVal, toNat_ofNat_of_lt (show 48 + d < 55296 by omega),
      if_pos (by omega)]
    exact congrArg some (by omega)
  · rw [if_neg h10, hexVal, toNat_ofNat_of_lt (show 87 + d < 55296 by omega),
      if_neg (by omega), if_pos (by omega)]
    exact congrArg some (by omega)

/-- Helper: decoding a rendered `\u00XX` escape prefixes the encoded
character. -/
theorem parseStringBody_u (a b : Nat) (ha : a < 16) (hb : b < 16)
    (tail : List Char) :
    parseStringBody ('\\' :: 'u' :: '0' :: '0' ::
        hexDigitChar a :: hexDigitChar b :: tail) =
      (parseStringBody tail).map (fun p => (Char.ofNat (a * 16 + b) :: p.1, p.2)) := by
  rw [parseStringBody.eq_def]
  show (match hexVal '0', hexVal '0', hexVal (hexDigitChar a),
      hexVal (hexDigitChar b) with
    | some a', some b', some c', some d' =>
        (parseStringBody tail).map
          (fun p => (Char.ofNat (((a' * 16 + b') * 16 + c') * 16 + d') :: p.1, p.2))
    | _, _, _, _ => none) =
      (parseStringBody tail).map (fun p => (Char.ofNat (a * 16 + b) :: p.1, p.2))
  rw [hexVal_hexDigitChar ha, hexVal_hexDigitChar hb]
  show (parseStringBody tail).map
      (fun p => (Char.ofNat (((0 * 16 + 0) * 16 + a) * 16 + b) :: p.1, p.2)) = _
  simp only [Nat.zero_mul, Nat.zero_add]

/-- Helper: an unescaped character is consumed verbatim. -/
theorem parseStringBody_cons_ne (c : Char) (cs : List Char)
    (h1 : ¬(c = '"')) (h2 : ¬(c = '\\')) :
    parseStringBody (c :: cs) = (parseStringBody cs).map (fun p => (c :: p.1, p.2)) := by
  rw [parseStringBody.eq_def]
  simp only [if_neg h1, if_neg h2]

/-- Helper: an escaped string body followed by a closing quote parses back to
exactly the original characters. -/
theorem parseStringBody_escape : ∀ (s : List Char) (rest : List Char),
    parseStringBody (s.flatMap escapeChar ++ ('"' :: rest)) = some (s, rest) := by
  intro s
  induction s with
  | nil =>
      intro rest
      simp only [List.flatMap_nil, List.nil_append]
      rw [parseStringBody.eq_def]
      rfl
  | cons c cs ih =>
      intro rest
      rw [List.flatMap_cons, List.append_assoc]
      by_cases h1 : c = '"'
      · subst h1
        rw [show escapeChar '"' = ['\\', '"'] from rfl]
        simp only [List.cons_append, List.nil_append]
        rw [parseStringBody.eq_def]
        show Option.map (fun p => ('"' :: p.1, p.2))
            (parseStringBody (cs.flatMap escapeChar ++ '"' :: rest)) =
          some ('"' :: cs, rest)
        rw [ih rest]
        rfl
      · by_cases h2 : c = '\\'
        · subst h2
          rw [show escapeChar '\\' = ['\\', '\\'] from rfl]
          simp only [List.cons_append, List.nil_append]
          rw [parseStringBody.eq_def]
          show Option.map (fun p => ('\\' :: p.1, p.2))
              (parseStringBody (cs.flatMap escapeChar ++ '"' :: rest)) =
            some ('\\' :: cs, rest)
          rw [ih rest]
          rfl
        · by_cases h3 : c = Char.ofNat 8
          · subst h3
            rw [show escapeChar (Char.ofNat 8) = ['\\', 'b'] from rfl]
            simp only [List.cons_append, List.nil_append]
            rw [parseStringBody.eq_def]
            show Option.map (fun p => (Char.ofNat 8 :: p.1, p.2))
                (parseStringBody (cs.flatMap escapeChar ++ '"' :: rest)) =
              some (Char.ofNat 8 :: cs, rest)
            rw [ih rest]
            rfl
          · by_cases h4 : c = Char.ofNat 9
            · subst h4
              rw [show escapeChar (Char.ofNat 9) = ['\\', 't'] from rfl]
              simp only [List.cons_append, List.nil_append]
              rw [parseStringBody.eq_def]
              show Option.map (fun p => (Char.ofNat 9 :: p.1, p.2))
                  (parseStringBody (cs.flatMap escapeChar ++ '"' :: rest)) =
                some (Char.ofNat 9 :: cs, rest)
              rw [ih rest]
              rfl
            · by_cases h5 : c = Char.ofNat 10
              · subst h5
                rw [show escapeChar (Char.ofNat 10) = ['\\', 'n'] from rfl]
                simp only [List.cons_append, List.nil_append]
                rw [parseStringBody.eq_def]
                show Option.map (fun p => (Char.ofNat 10 :: p.1, p.2))
                    (parseStringBody (cs.flatMap escapeChar ++ '"' :: rest)) =
                  some (Char.ofNat 10 :: cs, rest)
                rw [ih rest]
                rfl
              · by_cases h6 : c = Char.ofNat 12
                · subst h6
                  rw [show escapeChar (Char.ofNat 12) = ['\\', 'f'] from rfl]
                  simp only [List.cons_append, List.nil_append]
                  rw [parseStringBody.eq_def]
                  show Option.map (fun p => (Char.ofNat 12 :: p.1, p.2))
                      (parseStringBody (cs.flatMap escapeChar ++ '"' :: rest)) =
                    some (Char.ofNat 12 :: cs, rest)
                  rw [ih rest]
                  rfl
                · by_cases h7 : c = Char.ofNat 13
                  · subst h7
                    rw [show escapeChar (Char.ofNat 13) = ['\\', 'r'] from rfl]
                    simp only [List.cons_append, List.nil_append]
                    rw [parseStringBody.eq_def]
                    show Option.map (fun p => (Char.ofNat 13 :: p.1, p.2))
                        (parseStringBody (cs.flatMap escapeChar ++ '"' :: rest)) =
                      some (Char.ofNat 13 :: cs, rest)
                    rw [ih rest]
                    rfl
                  · by_cases h8 : c.toNat < 32
                    · rw [show escapeChar c = ['\\', 'u', '0', '0',
                          hexDigitChar (c.toNat / 16), hexDigitChar (c.toNat % 16)]
                          from by
                        rw [escapeChar, if_neg h1, if_neg h2, if_neg h3, if_neg h4,
                          if_neg h5, if_neg h6, if_neg h7, if_pos h8]]
                      simp only [List.cons_append, List.nil_append]
                      rw [parseStringBody_u _ _ (by omega) (by omega), ih rest]
                      have harith : c.toNat / 16 * 16 + c.toNat % 16 = c.toNat := by
                        omega
                      rw [harith, Char.ofNat_toNat]
                      rfl
                    · rw [show escapeChar c = [c] from by
                        rw [escapeChar, if_neg h1, if_neg h2, if_neg h3, if_neg h4,
                          if_neg h5, if_neg h6, if_neg h7, if_neg h8]]
                      simp only [List.cons_append, List.nil_append]
                      rw [parseStringBody_cons_ne c _ h1 h2, ih rest]
                      rfl

/-- Helper: whitespace skipping stops at a non-whitespace head. -/
theorem skipWs_cons (c : Char) (l : List Char) (h : isWs c = false) :
    skipWs (c :: l) = c :: l := by
  rw [skipWs, h]
  simp

/-- Helper: `skipWs` is inert on a leading quote. -/
theorem skipWs_quote (l : List Char) : skipWs ('"' :: l) = '"' :: l :=
  skipWs_cons _ _ (by decide)

/-- Helper: `skipWs` is inert on a leading colon. -/
theorem skipWs_colon (l : List Char) : skipWs (':' :: l) = ':' :: l :=
  skipWs_cons _ _ (by decide)

/-- Helper: `skipWs` is inert on a leading comma. -/
theorem skipWs_comma (l : List Char) : skipWs (',' :: l) = ',' :: l :=
  skipWs_cons _ _ (by decide)

/-- Helper: `skipWs` is inert on a leading closing bracket. -/
theorem skipWs_rbracket (l : List Char) : skipWs (']' :: l) = ']' :: l :=
  skipWs_cons _ _ (by decide)

/-- Helper: `skipWs` is inert on a leading closing brace. -/
theorem skipWs_rbrace (l : List Char) : skipWs ('}' :: l) = '}' :: l :=
  skipWs_cons _ _ (by decide)

/-- Helper: rebuilding a string from its character data is the identity. -/
theorem mk_data (s : String) : String.mk s.data = s := rfl

/-- Helper: a digit character is not whitespace, none of the value-dispatch
head characters, and not a closing bracket. -/
theorem isDigit_facts {c : Char} (h : isDigit c = true) :
    isWs c = false ∧ c ≠ ']' ∧ ¬(c = 'n') ∧ ¬(c = 't') ∧ ¬(c = 'f') ∧
      ¬(c = '"') ∧ ¬(c = '[') ∧ ¬(c = '{') ∧ ¬(c = '-') := by
  rw [isDigit] at h
  simp only [Bool.and_eq_true, decide_eq_true_eq] at h
  have w1 : c ≠ ' ' := fun hc => absurd (hc ▸ h.1) (by decide)
  have w2 : c ≠ Char.ofNat 9 := fun hc => absurd (hc ▸ h.1) (by decide)
  have w3 : c ≠ Char.ofNat 10 := fun hc => absurd (hc ▸ h.1) (by decide)
  have w4 : c ≠ Char.ofNat 13 := fun hc => absurd (hc ▸ h.1) (by decide)
  refine ⟨?_, fun hc => absurd (hc ▸ h.2) (by decide),
    fun hc => absurd (hc ▸ h.2) (by decide), fun hc => absurd (hc ▸ h.2) (by decide),
    fun hc => absurd (hc ▸ h.2) (by decide), fun hc => absurd (hc ▸ h.1) (by decide),
    fun hc => absurd (hc ▸ h.2) (by decide), fun hc => absurd (hc ▸ h.2) (by decide),
    fun hc => absurd (hc ▸ h.1) (by decide)⟩
  rw [isWs]
  simp [w1, w2, w3, w4]

/-- Helper: every serialized value starts with a non-whitespace character
that is not a closing bracket. -/
theorem serializeVal_head (v : Json) :
    ∃ c l, serializeVal v = c :: l ∧ isWs c = false ∧ c ≠ ']' := by
  cases v with
  | null => exact ⟨'n', _, by rw [serializeVal], by decide, by decide⟩
  | bool b =>
      cases b with
      | true => exact ⟨'t', _, by rw [serializeVal], by decide, by decide⟩
      | false => exact ⟨'f', _, by rw [serializeVal], by decide, by decide⟩
  | num i =>
      by_cases hi : i < 0
      · exact ⟨'-', _, by rw [serializeVal, intToChars, if_pos hi], by decide, by decide⟩
      · obtain ⟨hdig, hne, _⟩ := natToChars_spec i.natAbs
        cases heq : natToChars i.natAbs with
        | nil => exact absurd heq hne
        | cons c l =>
            have hd : isDigit c = true := hdig c (heq ▸ List.mem_cons_self _ _)
            obtain ⟨hws, hnr, _⟩ := isDigit_facts hd
            exact ⟨c, l, by rw [serializeVal, intToChars, if_neg hi, heq], hws, hnr⟩
  | str s => exact ⟨'"', _, by rw [serializeVal], by decide, by decide⟩
  | arr es => exact ⟨'[', _, by rw [serializeVal], by decide, by decide⟩
  | obj fs => exact ⟨'{', _, by rw [serializeVal], by decide, by decide⟩

/-- Helper: a nonempty element list serializes to the head element's
serialization followed by some tail. -/
theorem serializeElems_cons_ex (e : Json) (es : List Json) :
    ∃ tl, serializeElems (e :: es) = serializeVal e ++ tl := by
  cases es with
  | nil => exact ⟨[], by rw [serializeElems, List.append_nil]⟩
  | cons e2 es' =>
      refine ⟨',' :: serializeElems (e2 :: es'), ?_⟩
      rw [serializeElems] <;> simp

/-- Helper: a nonempty field list serializes starting with a quote. -/
theorem serializeFields_cons_ex (f : String × Json) (fs : List (String × Json)) :
    ∃ tl, serializeFields (f :: fs) = '"' :: tl := by
  obtain ⟨k, v⟩ := f
  cases fs with
  | nil =>
      refine ⟨k.data.flatMap escapeChar ++ ['"', ':'] ++ serializeVal v, ?_⟩
      rw [serializeFields]
      simp [List.append_assoc]
  | cons f2 fs' =>
      refine ⟨k.data.flatMap escapeChar ++ ['"', ':'] ++ serializeVal v ++
        ',' :: serializeFields (f2 :: fs'), ?_⟩
      rw [serializeFields] <;> simp [List.append_assoc]

/-- Helper: every value costs at least one unit of fuel. -/
theorem sizeJ_pos (v : Json) : 1 ≤ sizeJ v := by
  cases v <;> simp [sizeJ]

/-- Helper: a nonempty element list costs at least one unit of fuel. -/
theorem sizeElems_pos (e : Json) (es : List Json) : 1 ≤ sizeElems (e :: es) := by
  rw [sizeElems]
  omega

/-- Helper: a nonempty field list costs at least one unit of fuel. -/
theorem sizeFields_pos (f : String × Json) (fs : List (String × Json)) :
    1 ≤ sizeFields (f :: fs) := by
  obtain ⟨k, v⟩ := f
  rw [sizeFields]
  omega

/-- Helper: re-parsing a serialized canonical value recovers it exactly, in
any non-digit right context, whenever the fuel covers the value's size. -/
theorem parse_roundtrip : ∀ fuel : Nat,
    (∀ v rest, Canonical v → sizeJ v ≤ fuel → restOk rest →
      parseValue fuel (serializeVal v ++ rest) = some (v, rest)) ∧
    (∀ es acc rest, es ≠ [] → CanonicalElems es → sizeElems es ≤ fuel →
      parseElems fuel (serializeElems es ++ (']' :: rest)) acc =
        some (Json.arr (acc ++ es), rest)) ∧
    (∀ fs acc rest, fs ≠ [] → CanonicalFields fs →
      List.Pairwise (fun p q => ltStr p.1 q.1 = true) fs →
      (∀ p ∈ acc, ∀ q ∈ fs, ltStr p.1 q.1 = true) →
      sizeFields fs ≤ fuel →
      parseFields fuel (serializeFields fs ++ ('}' :: rest)) acc =
        some (Json.obj (acc ++ fs), rest)) := by
  intro fuel
  induction fuel with
  | zero =>
      refine ⟨?_, ?_, ?_⟩
      · intro v rest _ hsz _
        exact absurd hsz (by have := sizeJ_pos v; omega)
      · intro es acc rest hne _ hsz
        cases es with
        | nil => exact absurd rfl hne
        | cons e es' => exact absurd hsz (by have := sizeElems_pos e es'; omega)
      · intro fs acc rest hne _ _ _ hsz
        cases fs with
        | nil => exact absurd rfl hne
        | cons f fs' => exact absurd hsz (by have := sizeFields_pos f fs'; omega)
  | succ fuel ih =>
      obtain ⟨ih1, ih2, ih3⟩ := ih
      refine ⟨?_, ?_, ?_⟩
      · intro v rest hcan hsz hrest
        cases v with
        | null =>
            rw [show serializeVal .null = ['n', 'u', 'l', 'l'] from by rw [serializeVal]]
            simp only [List.cons_append, List.nil_append]
            rw [parseValue, skipWs_cons _ _ (by decide)]
            rfl
        | bool b =>
            cases b with
            | true =>
                rw [show serializeVal (.bool true) = ['t', 'r', 'u', 'e'] from by
                  rw [serializeVal]]
                simp only [List.cons_append, List.nil_append]
                rw [parseValue, skipWs_cons _ _ (by decide)]
                rfl
            | false =>
                rw [show serializeVal (.bool false) = ['f', 'a', 'l', 's', 'e'] from by
                  rw [serializeVal]]
                simp only [List.cons_append, List.nil_append]
                rw [parseValue, skipWs_cons _ _ (by decide)]
                rfl
        | num i =>
            by_cases hi : i < 0
            · rw [show serializeVal (Json.num i) = '-' :: natToChars i.natAbs from by
                rw [serializeVal, intToChars, if_pos hi]]
              simp only [List.cons_append]
              rw [parseValue, skipWs_cons _ _ (by decide)]
              show (match parseNat (natToChars i.natAbs ++ rest) with
                | some (n, rest') => some (Json.num (-(n : Int)), rest')
                | none => none) = some (Json.num i, rest)
              rw [parseNat_natToChars _ _ hrest]
              show some (Json.num (-(i.natAbs : Int)), rest) = some (Json.num i, rest)
              rw [show -(i.natAbs : Int) = i from by omega]
            · obtain ⟨hdig, hne, _⟩ := natToChars_spec i.natAbs
              cases heq : natToChars i.natAbs with
              | nil => exact absurd heq hne
              | cons c l =>
                  have hd : isDigit c = true := hdig c (heq ▸ List.mem_cons_self _ _)
                  obtain ⟨hws, _, hn1, hn2, hn3, hn4, hn5, hn6, hn7⟩ := isDigit_facts hd
                  rw [show serializeVal (Json.num i) = natToChars i.natAbs from by
                    rw [serializeVal, intToChars, if_neg hi], heq]
                  simp only [List.cons_append]
                  rw [parseValue, skipWs_cons _ _ hws]
                  simp only [if_neg hn1, if_neg hn2, if_neg hn3, if_neg hn4,
                    if_neg hn5, if_neg hn6, if_neg hn7, if_pos hd]
                  rw [← List.cons_append, ← heq,
                    parseNat_natToChars _ _ hrest]
                  show some (Json.num (i.natAbs : Int), rest) = some (Json.num i, rest)
                  rw [Int.natAbs_of_nonneg (by omega)]
        | str s =>
            rw [show serializeVal (Json.str s) =
                '"' :: (s.data.flatMap escapeChar ++ ['"']) from by rw [serializeVal]]
            simp only [List.cons_append, List.append_assoc, List.singleton_append]
            rw [parseValue, skipWs_cons _ _ (by decide)]
            show (parseStringBody (s.data.flatMap escapeChar ++ '"' :: rest)).map
                (fun p => (Json.str (String.mk p.1), p.2)) = some (Json.str s, rest)
            rw [parseStringBody_escape]
            rfl
        | arr es =>
            rw [Canonical] at hcan
            rw [show serializeVal (Json.arr es) = '[' :: (serializeElems es ++ [']'])
                from by rw [serializeVal]]
            simp only [List.cons_append, List.append_assoc, List.singleton_append]
            rw [parseValue, skipWs_cons _ _ (by decide)]
            show (match skipWs (serializeElems es ++ ']' :: rest) with
              | ']' :: rest' => some (Json.arr [], rest')
              | cs2 => parseElems fuel cs2 []) = some (Json.arr es, rest)
            cases es with
            | nil =>
                rw [show serializeElems [] = ([] : List Char) from by rw [serializeElems]]
                simp only [List.nil_append]
                rw [skipWs_rbracket]
                rfl
            | cons e es' =>
                obtain ⟨tl, htl⟩ := serializeElems_cons_ex e es'
                obtain ⟨c, lc, hserE, hws, hnr⟩ := serializeVal_head e
                have hshape : serializeElems (e :: es') ++ ']' :: rest =
                    c :: (lc ++ tl ++ ']' :: rest) := by
                  rw [htl, hserE]
                  simp [List.append_assoc]
                rw [hshape, skipWs_cons _ _ hws]
                split
                · next rest' hmatch =>
                    rw [List.cons.injEq] at hmatch
                    exact absurd hmatch.1 hnr
                · rw [← hshape]
                  have hrec := ih2 (e :: es') [] rest (by simp) hcan
                    (by rw [sizeJ] at hsz; omega)
                  simpa using hrec
        | obj fs =>
            rw [Canonical] at hcan
            rw [show serializeVal (Json.obj fs) = '{' :: (serializeFields fs ++ ['}'])
                from by rw [serializeVal]]
            simp only [List.cons_append, List.append_assoc, List.singleton_append]
            rw [parseValue, skipWs_cons _ _ (by decide)]
            show (match skipWs (serializeFields fs ++ '}' :: rest) with
              | '}' :: rest' => some (Json.obj [], rest')
              | cs2 => parseFields fuel cs2 []) = some (Json.obj fs, rest)
            cases fs with
            | nil =>
                rw [show serializeFields [] = ([] : List Char) from by
                  rw [serializeFields]]
                simp only [List.nil_append]
                rw [skipWs_rbrace]
                rfl
            | cons f fs' =>
                obtain ⟨tl, htl⟩ := serializeFields_cons_ex f fs'
                have hshape : serializeFields (f :: fs') ++ '}' :: rest =
                    '"' :: (tl ++ '}' :: rest) := by
                  rw [htl]
                  simp
                rw [hshape, skipWs_quote]
                split
                · next rest' hmatch =>
                    rw [List.cons.injEq] at hmatch
                    exact absurd hmatch.1 (by decide)
                · rw [← hshape]
                  have hrec := ih3 (f :: fs') [] rest (by simp) hcan.2 hcan.1
                    (by intro p hp; simp at hp)
                    (by rw [sizeJ] at hsz; omega)
                  simpa using hrec
      · intro es acc rest hne hcanE hsz
        cases es with
        | nil => exact absurd rfl hne
        | cons e es' =>
            rw [CanonicalElems] at hcanE
            rw [sizeElems] at hsz
            rw [parseElems]
            cases es' with
            | nil =>
                rw [show serializeElems [e] = serializeVal e from by rw [serializeElems]]
                rw [ih1 e (']' :: rest) hcanE.1 (by omega) (by rw [restOk]; decide)]
                show (match skipWs (']' :: rest) with
                  | ',' :: rest' => parseElems fuel rest' (acc ++ [e])
                  | ']' :: rest' => some (Json.arr (acc ++ [e]), rest')
                  | _ => none) = some (Json.arr (acc ++ [e]), rest)
                rw [skipWs_rbracket]
                rfl
            | cons e2 es'' =>
                rw [show serializeElems (e :: e2 :: es'') =
                    serializeVal e ++ ',' :: serializeElems (e2 :: es'') from by
                  rw [serializeElems] <;> simp]
                simp only [List.append_assoc, List.cons_append]
                rw [ih1 e _ hcanE.1 (by omega) (by rw [restOk]; decide)]
                show (match skipWs (',' :: (serializeElems (e2 :: es'') ++ ']' :: rest)) with
                  | ',' :: rest' => parseElems fuel rest' (acc ++ [e])
                  | ']' :: rest' => some (Json.arr (acc ++ [e]), rest')
                  | _ => none) = some (Json.arr (acc ++ (e :: e2 :: es'')), rest)
                rw [skipWs_comma]
                show parseElems fuel (serializeElems (e2 :: es'') ++ ']' :: rest)
                    (acc ++ [e]) = some (Json.arr (acc ++ (e :: e2 :: es'')), rest)
                rw [ih2 (e2 :: es'') (acc ++ [e]) rest (by simp) hcanE.2 (by omega)]
                simp
      · intro fs acc rest hne hcanF hpw hacclt hsz
        cases fs with
        | nil => exact absurd rfl hne
        | cons f fs' =>
            obtain ⟨k, v⟩ := f
            rw [CanonicalFields] at hcanF
            rw [sizeFields] at hsz
            obtain ⟨hkfs, hpw'⟩ := List.pairwise_cons.mp hpw
            have hinsert : insertKey k v acc = acc ++ [(k, v)] :=
              insertKey_append acc
                (fun p hp => hacclt p hp (k, v) (List.mem_cons_self _ _))
            rw [parseFields]
            cases fs' with
            | nil =>
                rw [show serializeFields [(k, v)] =
                    ('"' :: (k.data.flatMap escapeChar ++ ['"', ':'])) ++ serializeVal v
                    from by rw [serializeFields]]
                simp only [List.cons_append, List.append_assoc]
                rw [skipWs_quote]
                show (match parseStringBody (k.data.flatMap escapeChar ++
                    ('"' :: (':' :: (serializeVal v ++ '}' :: rest)))) with
                  | none => none
                  | some (kchars, rest1) =>
                      match skipWs rest1 with
                      | ':' :: rest' =>
                          match parseValue fuel rest' with
                          | none => none
                          | some (v', rest2) =>
                              match skipWs rest2 with
                              | ',' :: rest3 =>
                                  parseFields fuel rest3
                                    (insertKey (String.mk kchars) v' acc)
                              | '}' :: rest3 =>
                                  some (Json.obj (insertKey (String.mk kchars) v' acc),
                                    rest3)
                              | _ => none
                      | _ => none) = some (Json.obj (acc ++ [(k, v)]), rest)
                rw [parseStringBody_escape]
                show (match skipWs (':' :: (serializeVal v ++ '}' :: rest)) with
                  | ':' :: rest' =>
                      match parseValue fuel rest' with
                      | none => none
                      | some (v', rest2) =>
                          match skipWs rest2 with
                          | ',' :: rest3 =>
                              parseFields fuel rest3
                                (insertKey (String.mk k.data) v' acc)
                          | '}' :: rest3 =>
                              some (Json.obj (insertKey (String.mk k.data) v' acc), rest3)
                          | _ => none
                  | _ => none) = some (Json.obj (acc ++ [(k, v)]), rest)
                rw [skipWs_colon]
                show (match parseValue fuel (serializeVal v ++ '}' :: rest) with
                  | none => none
                  | some (v', rest2) =>
                      match skipWs rest2 with
                      | ',' :: rest3 =>
                          parseFields fuel rest3 (insertKey (String.mk k.data) v' acc)
                      | '}' :: rest3 =>
                          some (Json.obj (insertKey (String.mk k.data) v' acc), rest3)
                      | _ => none) = some (Json.obj (acc ++ [(k, v)]), rest)
                rw [ih1 v ('}' :: rest) hcanF.1 (by omega) (by rw [restOk]; decide)]
                show (match skipWs ('}' :: rest) with
                  | ',' :: rest3 =>
                      parseFields fuel rest3 (insertKey (String.mk k.data) v acc)
                  | '}' :: rest3 =>
                      some (Json.obj (insertKey (String.mk k.data) v acc), rest3)
                  | _ => none) = some (Json.obj (acc ++ [(k, v)]), rest)
                rw [skipWs_rbrace]
                show some (Json.obj (insertKey (String.mk k.data) v acc), rest) =
                  some (Json.obj (acc ++ [(k, v)]), rest)
                rw [mk_data, hinsert]
            | cons f2 fs'' =>
                rw [show serializeFields ((k, v) :: f2 :: fs'') =
                    ('"' :: (k.data.flatMap escapeChar ++ ['"', ':'])) ++ serializeVal v
                      ++ ',' :: serializeFields (f2 :: fs'') from by
                  rw [serializeFields] <;> simp]
                simp only [List.cons_append, List.append_assoc]
                rw [skipWs_quote]
                show (match parseStringBody (k.data.flatMap escapeChar ++
                    ('"' :: (':' :: (serializeVal v ++
                      (',' :: (serializeFields (f2 :: fs'') ++ '}' :: rest)))))) with
                  | none => none
                  | some (kchars, rest1) =>
                      match skipWs rest1 with
                      | ':' :: rest' =>
                          match parseValue fuel rest' with
                          | none => none
                          | some (v', rest2) =>
                              match skipWs rest2 with
                              | ',' :: rest3 =>
                                  parseFields fuel rest3
                                    (insertKey (String.mk kchars) v' acc)
                              | '}' :: rest3 =>
                                  some (Json.obj (insertKey (String.mk kchars) v' acc),
                                    rest3)
                              | _ => none
                      | _ => none) =
                  some (Json.obj (acc ++ ((k, v) :: f2 :: fs'')), rest)
                rw [parseStringBody_escape]
                show (match skipWs (':' :: (serializeVal v ++
                    (',' :: (serializeFields (f2 :: fs'') ++ '}' :: rest)))) with
                  | ':' :: rest' =>
                      match parseValue fuel rest' with
                      | none => none
                      | some (v', rest2) =>
                          match skipWs rest2 with
                          | ',' :: rest3 =>
                              parseFields fuel rest3
                                (insertKey (String.mk k.data) v' acc)
                          | '}' :: rest3 =>
                              some (Json.obj (insertKey (String.mk k.data) v' acc), rest3)
                          | _ => none
                  | _ => none) = some (Json.obj (acc ++ ((k, v) :: f2 :: fs'')), rest)
                rw [skipWs_colon]
                show (match parseValue fuel (serializeVal v ++
                    (',' :: (serializeFields (f2 :: fs'') ++ '}' :: rest))) with
                  | none => none
                  | some (v', rest2) =>
                      match skipWs rest2 with
                      | ',' :: rest3 =>
                          parseFields fuel rest3 (insertKey (String.mk k.data) v' acc)
                      | '}' :: rest3 =>
                          some (Json.obj (insertKey (String.mk k.data) v' acc), rest3)
                      | _ => none) =
                  some (Json.obj (acc ++ ((k, v) :: f2 :: fs'')), rest)
                rw [ih1 v _ hcanF.1 (by omega) (by rw [restOk]; decide)]
                show (match skipWs (',' :: (serializeFields (f2 :: fs'') ++ '}' :: rest))
                    with
                  | ',' :: rest3 =>
                      parseFields fuel rest3 (insertKey (String.mk k.data) v acc)
                  | '}' :: rest3 =>
                      some (Json.obj (insertKey (String.mk k.data) v acc), rest3)
                  | _ => none) = some (Json.obj (acc ++ ((k, v) :: f2 :: fs'')), rest)
                rw [skipWs_comma]
                show parseFields fuel (serializeFields (f2 :: fs'') ++ '}' :: rest)
                    (insertKey (String.mk k.data) v acc) =
                  some (Json.obj (acc ++ ((k, v) :: f2 :: fs'')), rest)
                rw [mk_data, hinsert]
                rw [ih3 (f2 :: fs'') (acc ++ [(k, v)]) rest (by simp) hcanF.2 hpw'
                  (by
                    intro p hp q hq
                    rcases List.mem_append.mp hp with hp | hp
                    · exact hacclt p hp q (List.mem_cons_of_mem _ hq)
                    · rw [List.mem_singleton.mp hp]
                      exact hkfs q hq)
                  (by omega)]
                simp

/-- Helper: a rendered integer is never empty. -/
theorem intToChars_ne_nil (i : Int) : intToChars i ≠ [] := by
  rw [intToChars]
  split
  · simp
  · exact (natToChars_spec i.natAbs).2.1

mutual

/-- Helper: the fuel cost of a value is covered by its serialized length. -/
theorem sizeJ_le_len : ∀ v : Json, sizeJ v ≤ (serializeVal v).length
  | .null => by rw [sizeJ, serializeVal]; simp
  | .bool true => by rw [sizeJ, serializeVal]; simp
  | .bool false => by rw [sizeJ, serializeVal]; simp
  | .num i => by
      rw [sizeJ, serializeVal]
      have := List.length_pos.mpr (intToChars_ne_nil i)
      omega
  | .str s => by rw [sizeJ, serializeVal]; simp
  | .arr es => by
      rw [sizeJ, serializeVal]
      have h := sizeElems_le_len es
      simp only [List.length_cons, List.length_append, List.length_singleton]
      omega
  | .obj fs => by
      rw [sizeJ, serializeVal]
      have h := sizeFields_le_len fs
      simp only [List.length_cons, List.length_append, List.length_singleton]
      omega

/-- Helper: the fuel cost of array elements is covered by their serialized
length plus one. -/
theorem sizeElems_le_len : ∀ es : List Json,
    sizeElems es ≤ (serializeElems es).length + 1
  | [] => by rw [sizeElems, serializeElems]; simp
  | [e] => by
      rw [sizeElems, sizeElems, serializeElems]
      have h := sizeJ_le_len e
      omega
  | e :: e2 :: es => by
      rw [sizeElems, show serializeElems (e :: e2 :: es) =
          serializeVal e ++ ',' :: serializeElems (e2 :: es) from by
        rw [serializeElems] <;> simp]
      have h1 := sizeJ_le_len e
      have h2 := sizeElems_le_len (e2 :: es)
      simp only [List.length_append, List.length_cons]
      omega

/-- Helper: the fuel cost of object fields is covered by their serialized
length plus one. -/
theorem sizeFields_le_len : ∀ fs : List (String × Json),
    sizeFields fs ≤ (serializeFields fs).length + 1
  | [] => by rw [sizeFields, serializeFields]; simp
  | [(k, v)] => by
      rw [sizeFields, sizeFields, serializeFields]
      have h := sizeJ_le_len v
      simp only [List.length_append, List.length_cons]
      omega
  | (k, v) :: f2 :: fs => by
      rw [sizeFields, show serializeFields ((k, v) :: f2 :: fs) =
          ('"' :: (k.data.flatMap escapeChar ++ ['"', ':'])) ++ serializeVal v ++
            ',' :: serializeFields (f2 :: fs) from by
        rw [serializeFields] <;> simp]
      have h1 := sizeJ_le_len v
      have h2 := sizeFields_le_len (f2 :: fs)
      simp only [List.length_append, List.length_cons]
      omega

end

/-- Helper: canonicity of stored field values is stable under permutation. -/
theorem canonicalFields_of_perm {fs1 fs2 : List (String × Json)}
    (hperm : List.Perm fs1 fs2) (h : CanonicalFields fs1) : CanonicalFields fs2 := by
  rw [canonicalFields_iff] at h ⊢
  intro p hp
  exact h p (hperm.mem_iff.mpr hp)

mutual

/-- Helper: canonical forms are unique in each structural-identity class:
two canonical values that agree up to object-key order are equal. -/
theorem jequiv_canonical_eq {v w : Json} (h : JEquiv v w)
    (hv : Canonical v) (hw : Canonical w) : v = w := by
  cases h with
  | null => rfl
  | bool b => rfl
  | num n => rfl
  | str s => rfl
  | arr he =>
      rw [Canonical] at hv hw
      exact congrArg Json.arr (jequivElems_canonical_eq he hv hw)
  | obj l hperm hf =>
      rw [Canonical] at hv hw
      have hcl : CanonicalFields l := canonicalFields_of_perm hperm hv.2
      have hlf := jequivFields_canonical_eq hf hcl hw.2
      have hperm2 := hlf ▸ hperm
      haveI : IsAntisymm (String × Json) (fun p q => ltStr p.1 q.1 = true) :=
        ⟨fun a b hab hba => by
          have hfalse := ltStr_asymm hab
          rw [hba] at hfalse
          cases hfalse⟩
      exact congrArg Json.obj (List.eq_of_perm_of_sorted hperm2 hv.1 hw.1)

/-- Helper: pointwise-equivalent canonical element lists are equal. -/
theorem jequivElems_canonical_eq {es1 es2 : List Json} (h : JEquivElems es1 es2)
    (hv : CanonicalElems es1) (hw : CanonicalElems es2) : es1 = es2 := by
  cases h with
  | nil => rfl
  | cons he hes =>
      rw [CanonicalElems] at hv hw
      rw [jequiv_canonical_eq he hv.1 hw.1, jequivElems_canonical_eq hes hv.2 hw.2]

/-- Helper: pointwise-equivalent canonical field lists are equal. -/
theorem jequivFields_canonical_eq {fs1 fs2 : List (String × Json)}
    (h : JEquivFields fs1 fs2) (hv : CanonicalFields fs1)
    (hw : CanonicalFields fs2) : fs1 = fs2 := by
  cases h with
  | nil => rfl
  | cons hk hval hfs =>
      rw [CanonicalFields] at hv hw
      rw [hk, jequiv_canonical_eq hval hv.1 hw.1,
        jequivFields_canonical_eq hfs hv.2 hw.2]

end

/-- Helper: every value `from_str` returns is canonical. -/
theorem from_str_canonical {s : String} {v : Json} (h : from_str s = some v) :
    Canonical v := by
  rw [from_str] at h
  split at h
  · next w rest heq =>
      split at h
      · cases h
        exact (parse_canonical (s.length + 1)).1 s.data v rest heq
      · cases h
  · cases h

/-- Helper: `from_str` inverts `to_string` on canonical values. -/
theorem from_str_to_string {v : Json} (hv : Canonical v) :
    from_str (to_string v) = some v := by
  rw [from_str, to_string]
  have hdata : (String.mk (serializeVal v)).data = serializeVal v := rfl
  have hlen : (String.mk (serializeVal v)).length = (serializeVal v).length := rfl
  rw [hdata, hlen]
  have hrt := (parse_roundtrip ((serializeVal v).length + 1)).1 v [] hv
    (by have := sizeJ_le_len v; omega) trivial
  rw [List.append_nil] at hrt
  rw [hrt]
  rfl

end Canon

open Canon in
/-- C6: `parse_args` canonicalizes its JSON payload: feeding its output back
through `parse_args` reproduces that output unchanged (idempotence), and any
two payloads whose parsed documents are structurally identical up to
object-key order (and, through parsing, whitespace) yield the very same
output string. -/
theorem parse_args_canonicalization :
    (∀ x y : String, RustToolExecutor.parse_args x = some y →
      RustToolExecutor.parse_args y = some y) ∧
    (∀ (x y : String) (v w : Json), from_str x = some v → from_str y = some w →
      JEquiv v w →
      RustToolExecutor.parse_args x = RustToolExecutor.parse_args y) := by
  constructor
  · intro x y h
    rw [RustToolExecutor.parse_args] at h ⊢
    cases hx : from_str x with
    | none =>
        rw [hx] at h
        cases h
    | some v =>
        rw [hx] at h
        simp only [Option.map_some', Option.some.injEq] at h
        subst h
        rw [from_str_to_string (from_str_canonical hx)]
        rfl
  · intro x y v w hx hy heq
    rw [RustToolExecutor.parse_args, RustToolExecutor.parse_args, hx, hy,
      jequiv_canonical_eq heq (from_str_canonical hx) (from_str_canonical hy)]

open Canon in
/-- C6 witness: the reordered, whitespace-laden payload and the compact
sorted payload canonicalize to the same string, and `parse_args` is a fixed
point on its own output. -/
theorem parse_args_canonicalization_witness :
    RustToolExecutor.parse_args "\x7b\"a\":2,\"b\":1\x7d" =
      some "\x7b\"a\":2,\"b\":1\x7d" ∧
    RustToolExecutor.parse_args "\x7b \"b\" : 1 , \"a\" : 2 \x7d" =
      RustToolExecutor.parse_args "\x7b\"a\":2 ,\"b\":1\x7d" :=
  ⟨parse_args_canonicalization.1 "\x7b \"b\" : 1 , \"a\" : 2 \x7d"
      "\x7b\"a\":2,\"b\":1\x7d" (by rfl),
   parse_args_canonicalization.2 "\x7b \"b\" : 1 , \"a\" : 2 \x7d"
     "\x7b\"a\":2 ,\"b\":1\x7d"
     (Json.obj [("a", Json.num 2), ("b", Json.num 1)])
     (Json.obj [("a", Json.num 2), ("b", Json.num 1)])
     (by rfl) (by rfl)
     (JEquiv.obj [("a", Json.num 2), ("b", Json.num 1)] (List.Perm.refl _)
       (JEquivFields.cons rfl (JEquiv.num 2)
         (JEquivFields.cons rfl (JEquiv.num 1) JEquivFields.nil)))⟩

end FastCrewai
